import Mathlib

/-!
Verification of the cleaning pipeline of `data_pipeline/cleaning/clean_sales_data.py`.

The Python module is shallowly embedded below:

* pandas cells are modelled by the inductive type `Cell` (a cell is missing
  (`NaN`/`NaT`), a string, a rational number, an integer, or a parsed date);
* a raw CSV row (the nine generator columns plus the source `revenue` column)
  is a `Row` of cells, with an `anomaly_flag` cell that starts out missing;
* Python floats are modelled by `ℚ` and pandas `round` by round-half-to-even
  on rationals;
* the canonical-category list, the region alias map, and the two timestamps
  `now - 20 years` / `now + 1 year` (real time is outside the embedding) are
  explicit parameters of the pipeline functions;
* `_clean_chunk` becomes `cleanChunk`, a staged sequence of list filters and
  maps; `clean_csv_to_parquet`'s chunk loop becomes `runPipeline`.

Python's `str.casefold`/`str.lower` are both modelled by `pyLower`, and
`str.strip` by `pyStrip` (the inputs we reason about are ASCII).
-/

namespace CleanSales

/- Batteries marks these irreducible; concrete evaluation of the pipeline on
sample rows (in the witness theorems below) needs them to unfold. -/
attribute [local semireducible] Rat.mul Rat.add Rat.sub Rat.inv Rat.ofScientific Nat.gcd

/-! ### String helpers -/

/-- `str.strip()` (ASCII whitespace; the data the pipeline sees is ASCII). -/
def pyStrip (s : String) : String :=
  ⟨(s.data.dropWhile Char.isWhitespace).reverse.dropWhile Char.isWhitespace |>.reverse⟩

/-- `str.lower()` / `str.casefold()` (they agree on ASCII). -/
def pyLower (s : String) : String := ⟨s.data.map Char.toLower⟩

/-! ### Rational helpers: `pd.to_numeric`, rounding -/

/-- Parse an optional ASCII decimal literal (optional sign, digits, at most
one decimal point), the fragment of `pd.to_numeric(errors="coerce")` that the
pipeline relies on.  Unparsable strings coerce to `none` (pandas `NaN`). -/
def parseDigits : List Char → Option ℕ
  | [] => none
  | cs =>
    if cs.all Char.isDigit then
      some (cs.foldl (fun acc c => acc * 10 + (c.toNat - 48)) 0)
    else none

/-- Parse the fractional part: digits after the decimal point, as a rational in `[0,1)`. -/
def parseFrac (cs : List Char) : Option ℚ :=
  match parseDigits cs with
  | none => none
  | some n => some ((n : ℚ) / ((10 : ℚ) ^ cs.length))

/-- `pd.to_numeric(errors="coerce")` on a string: strip, optional sign,
integer part, optional fractional part. -/
def parseRatString (s : String) : Option ℚ :=
  let cs := (pyStrip s).toList
  let (sign, body) :=
    match cs with
    | '-' :: rest => ((-1 : ℚ), rest)
    | '+' :: rest => ((1 : ℚ), rest)
    | rest => ((1 : ℚ), rest)
  match body.splitOn '.' with
  | [intPart] =>
    match parseDigits intPart with
    | some n => some (sign * n)
    | none => none
  | [intPart, fracPart] =>
    match intPart, fracPart with
    | [], [] => none
    | [], f =>
      match parseFrac f with
      | some q => some (sign * q)
      | none => none
    | i, [] =>
      match parseDigits i with
      | some n => some (sign * n)
      | none => none
    | i, f =>
      match parseDigits i, parseFrac f with
      | some n, some q => some (sign * ((n : ℚ) + q))
      | _, _ => none
  | _ => none

/-- Round-half-to-even to an integer, the rounding used by pandas `round`. -/
def roundEven (q : ℚ) : ℤ :=
  let f : ℤ := ⌊q⌋
  let r : ℚ := q - f
  if r < 1/2 then f
  else if 1/2 < r then f + 1
  else if f % 2 = 0 then f else f + 1

/-- `Series.round(2)`: round to two decimal places (half to even). -/
def round2 (q : ℚ) : ℚ := (roundEven (q * 100) : ℚ) / 100

/-! ### Email validation

`_clean_customer_email` checks the regex `^[^@\s]+@[^@\s]+\.[^@\s]+$` on the
lowercased, stripped value.  A string matches iff it splits as
`local ++ "@" ++ x ++ "." ++ y` where `local`, `x`, `y` are nonempty and no
character of the string other than the single `@` is an `@`, and no character
is whitespace. -/

/-- A character allowed by the character class `[^@\s]`. -/
def emailChar (c : Char) : Bool := c ≠ '@' && !c.isWhitespace

/-- Full match of `^[^@\s]+@[^@\s]+\.[^@\s]+$` on a string: exactly one `@`
with a nonempty left part, all characters outside the `@` drawn from `[^@\s]`,
and a `.` at an interior position of the part after the `@` (the pieces
`[^@\s]+` around the dot may themselves contain further dots). -/
def emailMatch (s : String) : Bool :=
  match s.toList.splitOn '@' with
  | [localPart, domain] =>
    localPart ≠ [] && localPart.all emailChar && domain.all emailChar &&
      ((domain.drop 1).dropLast.contains '.')
  | _ => false

/-! ### `_levenshtein`: bounded edit distance

The reference definition is Mathlib's `levenshtein` with the unit cost
structure.  `levB` mirrors the Python function `_levenshtein(left, right,
max_distance)`: the `left == right` / empty-operand shortcuts, the
length-difference early exit, and the row-by-row dynamic program that aborts
returning `max_distance + 1` as soon as the minimum entry of the current row
exceeds `max_distance`. -/

/-- Unit substitution cost (`cost = 0 if l_char == r_char else 1`). -/
def cost (x y : Char) : ℕ := if x = y then 0 else 1

/-- The true Levenshtein distance (Mathlib's, with unit costs). -/
def lev (xs ys : List Char) : ℕ := levenshtein Levenshtein.defaultCost xs ys

/-- Python `min(list)` on a nonempty list of naturals (`0` for `[]`, unused). -/
def minD : List ℕ → ℕ
  | [] => 0
  | x :: xs => xs.foldl min x

/-- The inner loop of `_levenshtein`: extend the current row.  `cprev` is
`current[j-1]`, the pair `p0, p1` walks `previous[j-1], previous[j]`. -/
def dpRowAux (l : Char) : ℕ → List Char → List ℕ → List ℕ
  | _, [], _ => []
  | _, _ :: _, [] => []
  | _, _ :: _, [_] => []
  | cprev, r :: rs, p0 :: p1 :: ps =>
    let c := min (cprev + 1) (min (p1 + 1) (p0 + cost l r))
    c :: dpRowAux l c rs (p1 :: ps)

/-- One full row of the dynamic program: `current = [i]` extended along `right`. -/
def dpRow (l : Char) (i : ℕ) (right : List Char) (previous : List ℕ) : List ℕ :=
  i :: dpRowAux l i right previous

/-- The outer loop of `_levenshtein` over the characters of `left`, with the
early abort when the row minimum exceeds `maxD`. -/
def dpLoop (maxD : ℕ) (right : List Char) : List Char → ℕ → List ℕ → ℕ
  | [], _, previous => previous.getLastD 0
  | l :: ls, i, previous =>
    let current := dpRow l i right previous
    if maxD < minD current then maxD + 1
    else dpLoop maxD right ls (i + 1) current

/-- `_levenshtein(left, right, max_distance=maxD)`. -/
def levB (left right : String) (maxD : ℕ) : ℕ :=
  if left = right then 0
  else if left.isEmpty then right.length
  else if right.isEmpty then left.length
  else if maxD < Nat.dist left.length right.length then maxD + 1
  else dpLoop maxD right.toList left.toList 1 (List.range (right.length + 1))

/-! ### Correctness of the dynamic program of `_levenshtein`

`rowFrom A Bq rs` is the intended value of the tail of Python's `previous`
row once the consumed left prefix, reversed, is `A` and the consumed right
prefix, reversed, is `Bq`: the distances from `A` to the reversals of the
successively longer right prefixes. -/

def rowFrom (A : List Char) : List Char → List Char → List ℕ
  | Bq, [] => [lev A Bq]
  | Bq, r :: rs => lev A Bq :: rowFrom A (r :: Bq) rs

/-! ### `_resolve_category` and `_resolve_region`

The canonical-category list and the region alias map are configuration
artifacts loaded at startup (`common_categories.json`, `region_map.json`);
they are parameters here.  Python dictionaries built by comprehension are
modelled as association lists where a later entry overwrites an earlier one
(`dictGet` returns the value of the *last* matching entry, like a dict built
by successive insertion).  The resolvers are `lru_cache`d in Python; the
cache is semantically transparent for a pure function and is not modelled. -/

/-- Lookup in a Python dict built by inserting the entries in list order
(`{k: v for (k, v) in m}`): the last matching entry wins. -/
def dictGet (m : List (String × String)) (k : String) : Option String :=
  m.foldl (fun acc p => if p.1 = k then some p.2 else acc) none

/-- `_CANONICAL_LOOKUP = {category.casefold(): category for category in cats}`. -/
def canonLookup (cats : List String) (key : String) : Option String :=
  cats.foldl (fun acc c => if pyLower c = key then some c else acc) none

/-- `_REGION_MAP_CASEFOLD = {key.casefold(): value for key, value in _REGION_MAP.items()}`. -/
def casefoldEntries (m : List (String × String)) : List (String × String) :=
  m.map (fun p => (pyLower p.1, p.2))

/-- The true (unbounded) distance used to judge a candidate: the category
resolver compares the lowered input against the case-folded candidate. -/
def catDist (lowered c : String) : ℕ := lev lowered.toList (pyLower c).toList

/-- The scanning loop of `_resolve_category`: track the best candidate and
the best distance (initially `_FUZZY_THRESHOLD + 1 = 3`), updating on strict
improvement, with the `break` once the distance hits `0`. -/
def fuzzyLoop (lowered : String) : List String → Option String → ℕ → Option String × ℕ
  | [], best, bestD => (best, bestD)
  | c :: cs, best, bestD =>
    let d := levB lowered (pyLower c) 2
    let best' := if d < bestD then some c else best
    let bestD' := if d < bestD then d else bestD
    if bestD' = 0 then (best', bestD') else fuzzyLoop lowered cs best' bestD'

/-- `_resolve_category(value)` over the canonical list `cats`. -/
def resolveCategory (cats : List String) (value : String) : Option String :=
  let normalised := pyStrip value
  if normalised = "" then none
  else
    let lowered := pyLower normalised
    match canonLookup cats lowered with
    | some c => some c
    | none =>
      match fuzzyLoop lowered cats none (2 + 1) with
      | (some m, bestD) => if bestD ≤ 2 then some m else none
      | (none, _) => none

/-- `_resolve_region(value)` over the alias map `m`: trim, exact lookup,
case-folded lookup, and the `"UNKNOWN"` sentinel resolves to no match. -/
def resolveRegion (m : List (String × String)) (value : String) : Option String :=
  let normalised := pyStrip value
  if normalised = "" then none
  else
    let mapped :=
      match dictGet m normalised with
      | some v => some v
      | none => dictGet (casefoldEntries m) (pyLower normalised)
    match mapped with
    | none => none
    | some v => if v = "UNKNOWN" then none else some v

/-- The `mapped` value computed by `_resolve_region`: exact lookup in the raw
alias map, falling back to the case-folded copy. -/
def regionMapped (m : List (String × String)) (value : String) : Option String :=
  match dictGet m (pyStrip value) with
  | some v => some v
  | none => dictGet (casefoldEntries m) (pyLower (pyStrip value))

/-- The spec-side description of `_resolve_category` (from the specification
text): the minimal case-insensitive edit distance to the canonical set, capped
at threshold + 1; success iff it is ≤ 2, returning the first minimal-distance
candidate in enumeration order. -/
def specResolveCategory (cats : List String) (value : String) : Option String :=
  let normalised := pyStrip value
  if normalised = "" then none
  else
    let lowered := pyLower normalised
    let dmin := cats.foldl (fun acc c => min acc (catDist lowered c)) (2 + 1)
    if dmin ≤ 2 then cats.find? (fun c => catDist lowered c = dmin) else none

/-- Reference scanning loop: same state machine as `fuzzyLoop` but driven by
the true distances and without the early exits. -/
def fuzzySpec (lowered : String) : List String → Option String → ℕ → Option String × ℕ
  | [], best, bestD => (best, bestD)
  | c :: cs, best, bestD =>
    if catDist lowered c < bestD then fuzzySpec lowered cs (some c) (catDist lowered c)
    else fuzzySpec lowered cs best bestD

/-! ### Dates

`_parse_multiple_date_formats` tries four `strptime` formats in a fixed
order.  A parsed date is a calendar triple; conversion to Unix seconds and
the `pd.Timestamp` representable range (midnights of 1677-09-22 through
2262-04-11) are modelled explicitly.  Out-of-range dates raise
`OutOfBoundsDatetime` (a `ValueError`) in pandas and therefore count as
parse failures. -/

structure YMD where
  year : ℤ
  month : ℕ
  day : ℕ
deriving DecidableEq

def isLeap (y : ℤ) : Bool := (y % 4 = 0 && y % 100 ≠ 0) || y % 400 = 0

def daysInMonth (y : ℤ) (m : ℕ) : ℕ :=
  if m = 2 then (if isLeap y then 29 else 28)
  else if m = 4 || m = 6 || m = 9 || m = 11 then 30
  else 31

/-- Days from the civil epoch 1970-01-01 (Howard Hinnant's algorithm; all
intermediate values are positive for the years admitted here). -/
def daysFromCivil (y : ℤ) (m d : ℕ) : ℤ :=
  let y' : ℤ := if m ≤ 2 then y - 1 else y
  let era : ℤ := (if 0 ≤ y' then y' else y' - 399) / 400
  let yoe : ℤ := y' - era * 400
  let mp : ℤ := if 2 < m then (m : ℤ) - 3 else (m : ℤ) + 9
  let doy : ℤ := (153 * mp + 2) / 5 + (d : ℤ) - 1
  let doe : ℤ := yoe * 365 + yoe / 4 - yoe / 100 + doy
  era * 146097 + doe - 719468

def dateToUnix (d : YMD) : ℤ := daysFromCivil d.year d.month d.day * 86400

/-- First representable midnight of `pd.Timestamp` (1677-09-22). -/
def tsMinDays : ℤ := daysFromCivil 1677 9 22

/-- Last representable midnight of `pd.Timestamp` (2262-04-11). -/
def tsMaxDays : ℤ := daysFromCivil 2262 4 11

/-- Assemble and validate year/month/day component digit strings, as
`strptime` does for `%Y` (1-4 digits), `%m` and `%d` (1-2 digits). -/
def makeDate (ys ms ds : List Char) : Option YMD :=
  if ys ≠ [] && ys.length ≤ 4 && ms ≠ [] && ms.length ≤ 2 && ds ≠ [] && ds.length ≤ 2 then
    match parseDigits ys, parseDigits ms, parseDigits ds with
    | some y, some m, some d =>
      if 1 ≤ m && m ≤ 12 && 1 ≤ d && d ≤ daysInMonth y m &&
          tsMinDays ≤ daysFromCivil y m d && daysFromCivil y m d ≤ tsMaxDays then
        some ⟨y, m, d⟩
      else none
    | _, _, _ => none
  else none

/-- `_parse_multiple_date_formats`: try `%Y-%m-%d`, `%m/%d/%Y`, `%d-%m-%Y`,
`%Y/%m/%d` in this order (the fast pattern-match branches agree with the
fallback loop, so the loop order is the semantics). -/
def parseDate (s : String) : Option YMD :=
  if s = "" then none
  else
    let tryFmt : ℕ → Option YMD := fun i =>
      match i with
      | 0 => match s.toList.splitOn '-' with
             | [ys, ms, ds] => makeDate ys ms ds
             | _ => none
      | 1 => match s.toList.splitOn '/' with
             | [ms, ds, ys] => makeDate ys ms ds
             | _ => none
      | 2 => match s.toList.splitOn '-' with
             | [ds, ms, ys] => makeDate ys ms ds
             | _ => none
      | _ => match s.toList.splitOn '/' with
             | [ys, ms, ds] => makeDate ys ms ds
             | _ => none
    match tryFmt 0 with
    | some d => some d
    | none =>
      match tryFmt 1 with
      | some d => some d
      | none =>
        match tryFmt 2 with
        | some d => some d
        | none => tryFmt 3

/-! ### Cells and rows

A pandas cell is missing (`NaN`/`NaT`), a string, a float (modelled by `ℚ`),
an integer, or a parsed timestamp.  A raw CSV row has the generator's ten
columns; `anomaly_flag` starts out missing (the raw file has no such column;
the frame-level presence of the column is tracked separately in
`ChunkResult.columns`). -/

inductive Cell where
  | na
  | str (s : String)
  | num (q : ℚ)
  | int (z : ℤ)
  | date (d : YMD)
deriving DecidableEq

/-- `astype(str)` on a cell after `fillna("")`. -/
def cellToString : Cell → String
  | .na => ""
  | .str s => s
  | .num q => toString q
  | .int z => toString z
  | .date _ => ""

/-- `_normalise_string` per cell: `fillna("").astype(str).str.strip()`. -/
def normCell (c : Cell) : String := pyStrip (cellToString c)

/-- `pd.to_numeric(errors="coerce")` per cell. -/
def toNumeric : Cell → Option ℚ
  | .na => none
  | .str s => parseRatString s
  | .num q => some q
  | .int z => some (z : ℚ)
  | .date _ => none

/-- `_clean_numeric(series, dtype="int")`: coerce, `fillna(0)`,
`clip(lower=0)`, `round()`, `astype("Int64")`. -/
def cleanInt (c : Cell) : ℤ := roundEven (max ((toNumeric c).getD 0) 0)

/-- `_clean_numeric(series)`: coerce and `fillna(0.0)`. -/
def cleanFloat (c : Cell) : ℚ := (toNumeric c).getD 0

/-- `_clean_discount`: coerce, `fillna(0.0)`, `clip(lower=0.0, upper=1.0)`. -/
def cleanDisc (c : Cell) : ℚ := min (max ((toNumeric c).getD 0) 0) 1

/-- Read a string cell (cells read this way are always strings here). -/
def cellS : Cell → String
  | .str s => s
  | _ => ""

/-- Read a numeric cell as a rational. -/
def cellQ : Cell → ℚ
  | .num q => q
  | .int z => (z : ℚ)
  | _ => 0

/-- Read an integer cell. -/
def cellZ : Cell → ℤ
  | .int z => z
  | _ => 0

def isDateCell : Cell → Bool
  | .date _ => true
  | _ => false

/-- Unix seconds of a timestamp cell (`astype("int64") // 1_000_000_000`). -/
def cellUnix : Cell → ℤ
  | .date d => dateToUnix d
  | _ => 0

/-- `_clean_customer_email` per cell: normalise, lowercase, keep iff the
regex matches, else `pd.NA`. -/
def cleanEmailCell (c : Cell) : Cell :=
  let e := pyLower (normCell c)
  if emailMatch e then .str e else .na

structure Row where
  order_id : Cell
  product_name : Cell
  category : Cell
  quantity : Cell
  unit_price : Cell
  discount_percent : Cell
  region : Cell
  sale_date : Cell
  customer_email : Cell
  revenue : Cell
  anomaly_flag : Cell
deriving DecidableEq

/-- `CleanConfig` (chunk_size drives the orchestrator's chunking only). -/
structure CleanConfig where
  chunk_size : ℕ := 100000
  drop_zero_quantity : Bool := true
  save_rejected_rows : Bool := true
deriving DecidableEq

/-- Static context of a run: the canonical categories, the region alias map,
and the timestamps `now - 20 years` / `now + 1 year` (in Unix seconds) that
`_clean_chunk` reads from the wall clock. -/
structure Ctx where
  cats : List String
  rmap : List (String × String)
  minTs : ℤ
  maxTs : ℤ
deriving DecidableEq

/-- The column order imposed on the clean frame before persisting. -/
def baseColumns : List String :=
  ["order_id", "product_name", "category", "quantity", "unit_price",
   "discount_percent", "region", "sale_date", "customer_email", "revenue"]

/-! Per-row transforms and keep-masks of the chunk stages, named so that the
row-major characterisation below can reuse the exact same functions. -/

/-- Stage 1: `_normalise_string` on `order_id` and `product_name`. -/
def normStep (r : Row) : Row :=
  { r with order_id := .str (normCell r.order_id),
           product_name := .str (normCell r.product_name) }

/-- Stage 1 keep-mask: both identifiers non-empty after normalisation. -/
def maskIds (r : Row) : Bool :=
  cellS r.order_id != "" && cellS r.product_name != ""

/-- Stage 3 keep-mask: the category resolves. -/
def maskCat (ctx : Ctx) (r : Row) : Bool :=
  (resolveCategory ctx.cats (normCell r.category)).isSome

/-- Stage 3 transform: write the resolved category back. -/
def catStep (ctx : Ctx) (r : Row) : Row :=
  { r with category := .str ((resolveCategory ctx.cats (normCell r.category)).getD "") }

/-- Stage 4 keep-mask: the region resolves. -/
def maskReg (ctx : Ctx) (r : Row) : Bool :=
  (resolveRegion ctx.rmap (normCell r.region)).isSome

/-- Stage 4 transform: write the resolved region back. -/
def regStep (ctx : Ctx) (r : Row) : Row :=
  { r with region := .str ((resolveRegion ctx.rmap (normCell r.region)).getD "") }

/-- Stage 5 transform: `_clean_numeric` / `_clean_discount` on the three
numeric columns. -/
def numStep (r : Row) : Row :=
  { r with quantity := .int (cleanInt r.quantity),
           unit_price := .num (cleanFloat r.unit_price),
           discount_percent := .num (cleanDisc r.discount_percent) }

/-- Stage 5 keep-mask: `0 < unit_price < 50000`. -/
def maskPrice (r : Row) : Bool :=
  decide ((0 : ℚ) < cellQ r.unit_price) && decide (cellQ r.unit_price < 50000)

/-- The heavy-discount predicate `discount_percent > 0.80`. -/
def heavyDisc (r : Row) : Bool := decide ((0.80 : ℚ) < cellQ r.discount_percent)

/-- The anomaly-flag assignment applied under the heavy-discount guard. -/
def anomStep (r : Row) : Row :=
  if (0.80 : ℚ) < cellQ r.discount_percent
  then { r with anomaly_flag := .str "heavy_discount" } else r

/-- Stage 6 keep-mask: positive quantity. -/
def maskQty (r : Row) : Bool := decide ((0 : ℤ) < cellZ r.quantity)

/-- Stage 7 transform: parse the sale date (`NaT` on failure). -/
def dateStep (r : Row) : Row :=
  { r with sale_date :=
    (match parseDate (normCell r.sale_date) with
     | some d => Cell.date d
     | none => Cell.na) }

/-- Stage 7 keep-mask: the date parsed. -/
def maskDate (r : Row) : Bool := isDateCell r.sale_date

/-- Stage 8 keep-mask: the date lies in `[now - 20y, now + 1y]`. -/
def maskRange (ctx : Ctx) (r : Row) : Bool :=
  decide (ctx.minTs ≤ cellUnix r.sale_date) && decide (cellUnix r.sale_date ≤ ctx.maxTs)

/-- Stage 8 transform: convert the date to Unix seconds. -/
def unixStep (r : Row) : Row := { r with sale_date := .int (cellUnix r.sale_date) }

/-- Stage 9 transform: `_clean_customer_email`. -/
def emailStep (r : Row) : Row :=
  { r with customer_email := cleanEmailCell r.customer_email }

/-- Stage 9 transform: recompute `revenue = round(price * qty * (1 - disc), 2)`. -/
def revStep (r : Row) : Row :=
  { r with revenue := (Cell.num
      (round2 (cellQ r.unit_price * (cellZ r.quantity : ℚ) * (1 - cellQ r.discount_percent)))) }

/-- Stage 9 keep-mask: `0 ≤ revenue < 1e6`. -/
def maskRev (r : Row) : Bool :=
  decide ((0 : ℚ) ≤ cellQ r.revenue) && decide (cellQ r.revenue < 1000000)

/-- `_reject_rows(mask, reason)`: keep the masked rows; when rejected-row
tracking is on, record the complement with the reason. -/
def rejectRows (cfg : CleanConfig) (rows : List Row) (mask : Row → Bool) (reason : String) :
    List Row × List (Row × String) :=
  (rows.filter mask,
   if cfg.save_rejected_rows then (rows.filter (fun r => !(mask r))).map (fun r => (r, reason))
   else [])

/-- `data.duplicated(subset="order_id", keep="first")` split: first occurrence
of each order_id is kept, later ones are rejected.  `acc` holds the ids seen
so far (`[]` at the start of a chunk). -/
def dedupGo (acc : List String) : List Row → List Row × List Row
  | [] => ([], [])
  | r :: rs =>
    let id := cellS r.order_id
    let (keep, rej) := dedupGo (id :: acc) rs
    if acc.contains id then (keep, r :: rej) else (r :: keep, rej)

/-- Result of cleaning one chunk: the clean rows, the clean frame's column
list, the rejected rows with reasons (in stage order), and the updated
seen-order-id collection. -/
structure ChunkResult where
  cleaned : List Row
  columns : List String
  rejected : List (Row × String)
  seen : List String
deriving DecidableEq

/-- `_clean_chunk(frame, seen_order_ids, config)`.  The stages appear in the
source's order; the source's early returns on an empty intermediate frame are
observationally the identity (every later stage maps an empty list to an
empty list and the seen-set update adds nothing), so the embedding proceeds
uniformly.  Resolution results are computed once per row here where the
source computes them on the pre-filter frame and reuses them via `.loc`;
the resolvers are pure, so the value assigned to survivors is the same. -/
def cleanChunk (ctx : Ctx) (cfg : CleanConfig) (frame : List Row) (seen : List String) :
    ChunkResult :=
  -- Step 1: normalise identifiers, drop rows without a valid id or product.
  let data1 := frame.map normStep
  let (data2, rej1) := rejectRows cfg data1 maskIds "missing_order_id_or_product"
  -- Step 2: within-chunk duplicates, then cross-chunk duplicates.
  let (data3, dupRows) := dedupGo [] data2
  let rej2 := if cfg.save_rejected_rows then dupRows.map (fun r => (r, "duplicate_order_id")) else []
  let (data4, rej3) := rejectRows cfg data3
    (fun r => !(seen.contains (cellS r.order_id))) "duplicate_order_id"
  -- Step 3: canonicalise category, then region.
  let (data5, rej4) := rejectRows cfg data4 (maskCat ctx) "unknown_category"
  let data6 := data5.map (catStep ctx)
  let (data7, rej5) := rejectRows cfg data6 (maskReg ctx) "unknown_region"
  let data8 := data7.map (regStep ctx)
  -- Step 4: numeric cleaning, unit-price validation, heavy-discount flag.
  let data9 := data8.map numStep
  let (data10, rej6) := rejectRows cfg data9 maskPrice "invalid_unit_price"
  let anyHeavy := data10.any heavyDisc
  let data11 := if anyHeavy then data10.map anomStep else data10
  -- Step 5: zero quantity (if configured).
  let (data12, rej7) :=
    if cfg.drop_zero_quantity then rejectRows cfg data11 maskQty "zero_quantity"
    else (data11, [])
  -- Step 6: parse dates, validate, range-check, convert to Unix seconds.
  let data13 := data12.map dateStep
  let (data14, rej8) := rejectRows cfg data13 maskDate "invalid_sale_date"
  let (data15, rej9) := rejectRows cfg data14 (maskRange ctx) "sale_date_out_of_range"
  let data16 := data15.map unixStep
  -- Step 7: emails, recomputed revenue, revenue validation.
  let data17 := data16.map emailStep
  let data18 := data17.map revStep
  let (data19, rej10) := rejectRows cfg data18 maskRev "invalid_calculated_revenue"
  -- Commit: update the seen set with the survivors, order the columns.
  { cleaned := data19,
    columns := baseColumns ++ (if anyHeavy then ["anomaly_flag"] else []),
    rejected := rej1 ++ rej2 ++ rej3 ++ rej4 ++ rej5 ++ rej6 ++ rej7 ++ rej8 ++ rej9 ++ rej10,
    seen := seen ++ data19.map (fun r => cellS r.order_id) }

/-- The chunk loop of `clean_csv_to_parquet`: thread the seen-order-id state
through the chunks, appending each chunk's clean and rejected rows to their
sinks in order. -/
def runPipeline (ctx : Ctx) (cfg : CleanConfig) :
    List (List Row) → List String → List Row × List (Row × String) × List String
  | [], seen => ([], [], seen)
  | chunk :: chunks, seen =>
    let res := cleanChunk ctx cfg chunk seen
    let (cl, rej, seenF) := runPipeline ctx cfg chunks res.seen
    (res.cleaned ++ cl, res.rejected ++ rej, seenF)

/-- Structural helper for `chunksOf`: the fuel only needs to exceed the list
length (each step consumes at least one row). -/
def chunksOfAux (n : ℕ) : ℕ → List Row → List (List Row)
  | _, [] => []
  | 0, l => [l]
  | fuel + 1, r :: rs => (r :: rs.take (n - 1)) :: chunksOfAux n fuel (rs.drop (n - 1))

/-- `pd.read_csv(chunksize=n)`: split the file's rows into consecutive chunks
of `n` rows (the final chunk may be shorter). -/
def chunksOf (n : ℕ) (l : List Row) : List (List Row) := chunksOfAux n l.length l

/-! ### Row-major characterisation of the chunk pipeline -/

/-- `data` after identifier normalisation and the missing-id filter. -/
def normFiltered (frame : List Row) : List Row :=
  (frame.filter (fun r => maskIds (normStep r))).map normStep

/-- Rows kept by the within-chunk duplicate pass. -/
def dedupKeep (frame : List Row) : List Row := (dedupGo [] (normFiltered frame)).1

/-- Rows dropped by the within-chunk duplicate pass. -/
def dedupRej (frame : List Row) : List Row := (dedupGo [] (normFiltered frame)).2

/-- Row after the region write-back and numeric cleaning (stage-5 values). -/
def lateT5 (ctx : Ctx) (r : Row) : Row := numStep (regStep ctx (catStep ctx r))

/-- Row after the heavy-discount flagging (stage-6 values). -/
def lateT6 (ctx : Ctx) (r : Row) : Row := anomStep (lateT5 ctx r)

/-- Row after date parsing (stage-7/8 values). -/
def lateT7 (ctx : Ctx) (r : Row) : Row := dateStep (lateT6 ctx r)

/-- Row after Unix conversion. -/
def lateT8 (ctx : Ctx) (r : Row) : Row := unixStep (lateT7 ctx r)

/-- Fully transformed clean row. -/
def lateT9 (ctx : Ctx) (r : Row) : Row := revStep (emailStep (lateT8 ctx r))

/-- Not previously seen in an earlier chunk. -/
def survBase (seen : List String) (r : Row) : Bool := !seen.contains (cellS r.order_id)

def survCat (ctx : Ctx) (seen : List String) (r : Row) : Bool :=
  maskCat ctx r && survBase seen r

def survReg (ctx : Ctx) (seen : List String) (r : Row) : Bool :=
  maskReg ctx (catStep ctx r) && survCat ctx seen r

def survPrice (ctx : Ctx) (seen : List String) (r : Row) : Bool :=
  maskPrice (lateT5 ctx r) && survReg ctx seen r

def survQty (ctx : Ctx) (cfg : CleanConfig) (seen : List String) (r : Row) : Bool :=
  (!cfg.drop_zero_quantity || maskQty (lateT6 ctx r)) && survPrice ctx seen r

def survDate (ctx : Ctx) (cfg : CleanConfig) (seen : List String) (r : Row) : Bool :=
  maskDate (lateT7 ctx r) && survQty ctx cfg seen r

def survRange (ctx : Ctx) (cfg : CleanConfig) (seen : List String) (r : Row) : Bool :=
  maskRange ctx (lateT7 ctx r) && survDate ctx cfg seen r

def survRev (ctx : Ctx) (cfg : CleanConfig) (seen : List String) (r : Row) : Bool :=
  maskRev (lateT9 ctx r) && survRange ctx cfg seen r

/-- A heavy-discount row that reaches the anomaly stage. -/
def heavySurv (ctx : Ctx) (seen : List String) (r : Row) : Bool :=
  heavyDisc (lateT5 ctx r) && survPrice ctx seen r

/-- The rejection reason recorded by stage `s` of `_clean_chunk` (stages in
the source's order; 1 and 2 are the within- and cross-chunk duplicate
passes, which share a reason string). -/
def stageReason (s : ℕ) : String :=
  if s = 0 then "missing_order_id_or_product"
  else if s = 1 then "duplicate_order_id"
  else if s = 2 then "duplicate_order_id"
  else if s = 3 then "unknown_category"
  else if s = 4 then "unknown_region"
  else if s = 5 then "invalid_unit_price"
  else if s = 6 then "zero_quantity"
  else if s = 7 then "invalid_sale_date"
  else if s = 8 then "sale_date_out_of_range"
  else "invalid_calculated_revenue"

/-- The fate of a single input row: the clean transformed row, or the
stage-partial row paired with the index of the first stage that rejected
it.  `acc` holds the normalised ids of the rows earlier in the chunk that
passed the identifier stage; `seen` the ids accepted in earlier chunks. -/
def rowFate (ctx : Ctx) (cfg : CleanConfig) (seen acc : List String) (r : Row) :
    Row ⊕ (Row × ℕ) :=
  let n := normStep r
  if !(maskIds n) then .inr (n, 0)
  else if acc.contains (cellS n.order_id) then .inr (n, 1)
  else if seen.contains (cellS n.order_id) then .inr (n, 2)
  else if !(maskCat ctx n) then .inr (n, 3)
  else if !(maskReg ctx (catStep ctx n)) then .inr (catStep ctx n, 4)
  else if !(maskPrice (lateT5 ctx n)) then .inr (lateT5 ctx n, 5)
  else if cfg.drop_zero_quantity && !(maskQty (lateT6 ctx n)) then .inr (lateT6 ctx n, 6)
  else if !(maskDate (lateT7 ctx n)) then .inr (lateT7 ctx n, 7)
  else if !(maskRange ctx (lateT7 ctx n)) then .inr (lateT7 ctx n, 8)
  else if !(maskRev (lateT9 ctx n)) then .inr (lateT9 ctx n, 9)
  else .inl (lateT9 ctx n)

/-- The fates of all rows of a chunk, in row order. -/
def chunkFates (ctx : Ctx) (cfg : CleanConfig) (seen : List String) (acc : List String) :
    List Row → List (Row ⊕ (Row × ℕ))
  | [] => []
  | r :: rs =>
    let n := normStep r
    let acc' := if maskIds n then cellS n.order_id :: acc else acc
    rowFate ctx cfg seen acc r :: chunkFates ctx cfg seen acc' rs

/-- Select the rejected rows of stage `s` from a fate list, attaching the
stage's reason. -/
def rejAt (s : ℕ) : Row ⊕ (Row × ℕ) → Option (Row × String)
  | .inr (r, t) => if t = s then some (r, stageReason s) else none
  | .inl _ => none

/-- Overwrite a row's `revenue` cell (used to state that the pipeline never
reads the source file's revenue column). -/
def setRev (c : Cell) (r : Row) : Row := { r with revenue := c }

/-- Two rows that agree except possibly on `revenue`. -/
def RevEq (a b : Row) : Prop := setRev Cell.na a = setRev Cell.na b

/-! ### Concrete fixtures used by the witnesses and counterexamples -/

def testCtx : Ctx :=
  { cats := ["Electronics", "Home Office"],
    rmap := [("North America", "North America"), ("Mumbai", "Mumbai"), ("NA", "UNKNOWN")],
    minTs := 1000000000, maxTs := 2000000000 }

def testCfg : CleanConfig := {}

def mkRow (oid pn cat qty up disc reg sd em rev : String) : Row :=
  { order_id := .str oid, product_name := .str pn, category := .str cat,
    quantity := .str qty, unit_price := .str up, discount_percent := .str disc,
    region := .str reg, sale_date := .str sd, customer_email := .str em,
    revenue := .str rev, anomaly_flag := .na }

def row1 : Row := mkRow "ORD-1" "Widget" "Electronics" "2" "9.99" "0.1" "North America"
  "2023-01-01" "C@Example.com" "999"

/-- The clean record produced from `row1`. -/
def row1c : Row :=
  { order_id := .str "ORD-1", product_name := .str "Widget", category := .str "Electronics",
    quantity := .int 2, unit_price := .num (999/100), discount_percent := .num (1/10),
    region := .str "North America", sale_date := .int 1672531200,
    customer_email := .str "c@example.com", revenue := .num (1798/100), anomaly_flag := .na }

def row3 : Row := mkRow "ORD-3" "Thing" "Electronics" "1" "10" "0.85" "Mumbai"
  "2023-01-02" "u@example.com" "5"

def row4 : Row := mkRow "ORD-4" "Thing" "electronics" "1" "10" "0" "NA"
  "2023-01-02" "u@example.com" "5"

def rowX : Row := mkRow "ORD-9" "Thing" "Electronics" "1" "0" "0" "Mumbai"
  "2023-01-02" "u@example.com" "5"

def rowY : Row := mkRow "ORD-9" "Other" "Electronics" "1" "10" "0" "Mumbai"
  "2023-01-03" "u@example.com" "10"

/-- A row that reaches the revenue stage but whose recomputed revenue
(2000 * 1000) overflows the upper bound. -/
def rowZ : Row := mkRow "ORD-Z" "Bulk" "Electronics" "1000" "2000" "0" "Mumbai"
  "2023-01-02" "u@example.com" "5"

/-! ### Chunk-size independence of deduplication (C1) -/

/-- One-pass reference deduplication: keep the first row of each order id
not already accounted for in `acc`, mark every later one a duplicate.  The
accumulator is extended (at the back) with the keys of kept rows only. -/
def splitFirst (acc : List String) : List Row → List Row × List Row
  | [] => ([], [])
  | r :: rs =>
    if acc.contains (cellS r.order_id) then
      ((splitFirst acc rs).1, r :: (splitFirst acc rs).2)
    else
      (r :: (splitFirst (acc ++ [cellS r.order_id]) rs).1,
        (splitFirst (acc ++ [cellS r.order_id]) rs).2)

/-- The accumulator after a `splitFirst` pass. -/
def splitAcc (acc : List String) : List Row → List String
  | [] => acc
  | r :: rs =>
    if acc.contains (cellS r.order_id) then splitAcc acc rs
    else splitAcc (acc ++ [cellS r.order_id]) rs

/-- A row that passes every per-row validation stage (identifiers present,
category and region resolve, price, optional quantity, date, range and
recomputed revenue all pass), so that only the duplicate stages can reject
it. -/
def validRow (ctx : Ctx) (cfg : CleanConfig) (r : Row) : Bool :=
  maskIds (normStep r) &&
    (maskCat ctx (normStep r) &&
      (maskReg ctx (catStep ctx (normStep r)) &&
        (maskPrice (lateT5 ctx (normStep r)) &&
          ((!cfg.drop_zero_quantity || maskQty (lateT6 ctx (normStep r))) &&
            (maskDate (lateT7 ctx (normStep r)) &&
              (maskRange ctx (lateT7 ctx (normStep r)) &&
                maskRev (lateT9 ctx (normStep r))))))))

/-! ### Theorems -/

/-! Basic facts about `lev`. -/

theorem lev_nil_left (B : List Char) : lev [] B = B.length := by
  induction B with
  | nil => simp [lev, levenshtein_nil_nil]
  | cons b B ih => simp [lev, levenshtein_nil_cons] at ih ⊢; omega

theorem lev_nil_right (A : List Char) : lev A [] = A.length := by
  induction A with
  | nil => simp [lev, levenshtein_nil_nil]
  | cons a A ih => simp [lev, levenshtein_cons_nil] at ih ⊢; omega

theorem lev_cons_cons (a b : Char) (A B : List Char) :
    lev (a :: A) (b :: B) =
      min (lev A (b :: B) + 1) (min (lev (a :: A) B + 1) (lev A B + cost a b)) := by
  simp only [lev, levenshtein_cons_cons, Levenshtein.defaultCost_delete,
    Levenshtein.defaultCost_insert, Levenshtein.defaultCost_substitute, cost]
  omega

theorem cost_self (a : Char) : cost a a = 0 := by simp [cost]

theorem cost_le_one (a b : Char) : cost a b ≤ 1 := by
  unfold cost; split <;> omega

theorem cost_comm (a b : Char) : cost a b = cost b a := by
  unfold cost
  by_cases h : a = b
  · subst h; rfl
  · rw [if_neg h, if_neg (fun h' => h h'.symm)]

theorem lev_self (A : List Char) : lev A A = 0 := by
  induction A with
  | nil => simp [lev, levenshtein_nil_nil]
  | cons a A ih =>
    rw [lev_cons_cons, ih, cost_self]
    omega

theorem lev_comm (A B : List Char) : lev A B = lev B A := by
  induction A generalizing B with
  | nil => rw [lev_nil_left, lev_nil_right]
  | cons a A ihA =>
    induction B with
    | nil => rw [lev_nil_left, lev_nil_right]
    | cons b B ihB =>
      rw [lev_cons_cons, lev_cons_cons, ihA (b :: B), ihA B, ihB, cost_comm]
      omega

theorem length_dist_le_lev (A B : List Char) : Nat.dist A.length B.length ≤ lev A B := by
  induction A generalizing B with
  | nil => rw [lev_nil_left]; simp [Nat.dist]
  | cons a A ihA =>
    induction B with
    | nil => rw [lev_nil_right]; simp [Nat.dist]
    | cons b B ihB =>
      rw [lev_cons_cons]
      have h1 := ihA (b :: B)
      have h2 := ihA B
      have h3 := ihB
      simp only [Nat.dist, List.length_cons] at h1 h2 h3 ⊢
      omega

set_option maxHeartbeats 1600000 in
/-- The "snoc" recurrence for the Levenshtein distance: the usual `cons`
recurrence read off the right-hand ends of the two lists.  This is what makes
the prefix-directed dynamic program of `_levenshtein` compute `lev`. -/
theorem lev_snoc (x y : Char) (A B : List Char) :
    lev (A ++ [x]) (B ++ [y]) =
      min (lev A (B ++ [y]) + 1) (min (lev (A ++ [x]) B + 1) (lev A B + cost x y)) := by
  induction A generalizing B with
  | nil =>
    induction B with
    | nil =>
      simp only [List.nil_append]
      exact lev_cons_cons x y [] []
    | cons b B ihB =>
      simp only [List.nil_append, List.cons_append] at ihB ⊢
      have h1 := lev_cons_cons x b [] (B ++ [y])
      have h3 := lev_cons_cons x b [] B
      have n1 := lev_nil_left (b :: (B ++ [y]))
      have n2 := lev_nil_left (B ++ [y])
      have n3 := lev_nil_left (b :: B)
      have n4 := lev_nil_left B
      simp only [List.length_cons, List.length_append, List.length_singleton, List.length_nil] at n1 n2 n3 n4
      have c1 := cost_le_one x y
      have c2 := cost_le_one x b
      omega
  | cons a A ihA =>
    induction B with
    | nil =>
      have h1 := lev_cons_cons a y (A ++ [x]) []
      have h2 := ihA []
      have h3 := lev_cons_cons a y A []
      simp only [List.nil_append, List.cons_append] at h1 h2 h3 ⊢
      have n1 := lev_nil_right (a :: (A ++ [x]))
      have n2 := lev_nil_right (A ++ [x])
      have n3 := lev_nil_right (a :: A)
      have n4 := lev_nil_right A
      simp only [List.length_cons, List.length_append, List.length_singleton, List.length_nil] at n1 n2 n3 n4
      have c1 := cost_le_one x y
      have c2 := cost_le_one a y
      omega
    | cons b B ihB =>
      have g1 := ihA (b :: B)
      have g2 := ihB
      have g3 := ihA B
      simp only [List.cons_append] at g1 g2 g3 ⊢
      rw [lev_cons_cons a b (A ++ [x]) (B ++ [y]), g1, g2, g3,
        lev_cons_cons a b A (B ++ [y]), lev_cons_cons a b (A ++ [x]) B,
        lev_cons_cons a b A B]
      apply le_antisymm <;> simp only [le_min_iff, min_le_iff] <;> omega

/-- Levenshtein distance is invariant under reversing both arguments. -/
theorem lev_reverse (A B : List Char) : lev A.reverse B.reverse = lev A B := by
  induction A generalizing B with
  | nil => simp [lev_nil_left]
  | cons a A ihA =>
    induction B with
    | nil => simp [lev_nil_right]
    | cons b B ihB =>
      rw [List.reverse_cons, List.reverse_cons]
      have h1 := lev_snoc a b A.reverse B.reverse
      have h2 := ihA (b :: B)
      have h3 := ihB
      have h4 := ihA B
      have h5 := lev_cons_cons a b A B
      simp only [List.reverse_cons] at h2 h3
      omega

theorem rowFrom_ne_nil (A Bq rs : List Char) : rowFrom A Bq rs ≠ [] := by
  cases rs <;> simp [rowFrom]

theorem rowFrom_eq_cons (A Bq rs : List Char) :
    rowFrom A Bq rs = lev A Bq :: (rowFrom A Bq rs).tail := by
  cases rs <;> rfl

theorem dpRowAux_spec (l : Char) (A : List Char) :
    ∀ (rs Bq : List Char),
      dpRowAux l (lev (l :: A) Bq) rs (rowFrom A Bq rs) = (rowFrom (l :: A) Bq rs).tail := by
  intro rs
  induction rs with
  | nil => intro Bq; rfl
  | cons r rs ih =>
    intro Bq
    rw [show rowFrom A Bq (r :: rs) = lev A Bq :: rowFrom A (r :: Bq) rs from rfl,
      rowFrom_eq_cons A (r :: Bq) rs]
    show (min (lev (l :: A) Bq + 1) (min (lev A (r :: Bq) + 1) (lev A Bq + cost l r))) ::
        dpRowAux l _ rs (lev A (r :: Bq) :: (rowFrom A (r :: Bq) rs).tail) =
      (rowFrom (l :: A) Bq (r :: rs)).tail
    have hc : min (lev (l :: A) Bq + 1) (min (lev A (r :: Bq) + 1) (lev A Bq + cost l r)) =
        lev (l :: A) (r :: Bq) := by
      rw [lev_cons_cons l r A Bq]; omega
    rw [hc, ← rowFrom_eq_cons A (r :: Bq) rs, ih (r :: Bq),
      show (rowFrom (l :: A) Bq (r :: rs)).tail = rowFrom (l :: A) (r :: Bq) rs from rfl,
      rowFrom_eq_cons (l :: A) (r :: Bq) rs]
    rfl

theorem dpRow_spec (l : Char) (A R : List Char) :
    dpRow l (A.length + 1) R (rowFrom A [] R) = rowFrom (l :: A) [] R := by
  have hi : A.length + 1 = lev (l :: A) [] := by
    rw [lev_nil_right]; simp
  rw [dpRow, hi, dpRowAux_spec l A R []]
  exact (rowFrom_eq_cons (l :: A) [] R).symm

theorem getLastD_of_ne_nil {l : List ℕ} (h : l ≠ []) (d d' : ℕ) :
    l.getLastD d = l.getLastD d' := by
  cases l with
  | nil => exact absurd rfl h
  | cons a t =>
    cases t with
    | nil => rfl
    | cons b t' => simp only [List.getLastD_cons]

theorem rowFrom_getLastD (A : List Char) :
    ∀ (rs Bq : List Char), (rowFrom A Bq rs).getLastD 0 = lev A (rs.reverse ++ Bq) := by
  intro rs
  induction rs with
  | nil => intro Bq; simp [rowFrom]
  | cons r rs ih =>
    intro Bq
    show (lev A Bq :: rowFrom A (r :: Bq) rs).getLastD 0 = _
    rw [List.getLastD_cons,
      getLastD_of_ne_nil (rowFrom_ne_nil A (r :: Bq) rs) (lev A Bq) 0, ih (r :: Bq)]
    simp [List.append_assoc]

theorem rowFrom_mem (A : List Char) :
    ∀ (rs Bq : List Char) (j : ℕ), j ≤ rs.length →
      lev A ((rs.take j).reverse ++ Bq) ∈ rowFrom A Bq rs := by
  intro rs
  induction rs with
  | nil =>
    intro Bq j _
    simp [rowFrom]
  | cons r rs ih =>
    intro Bq j hj
    match j with
    | 0 => simp [rowFrom]
    | j + 1 =>
      have : ((r :: rs).take (j + 1)).reverse ++ Bq = (rs.take j).reverse ++ (r :: Bq) := by
        simp [List.take_succ_cons, List.reverse_cons, List.append_assoc]
      rw [this]
      exact List.mem_cons_of_mem _ (ih (r :: Bq) j (by simpa using hj))

theorem minD_le_of_mem : ∀ (l : List ℕ) (x : ℕ), x ∈ l → minD l ≤ x := by
  have aux : ∀ (xs : List ℕ) (a : ℕ), xs.foldl min a ≤ a := by
    intro xs
    induction xs with
    | nil => intro a; exact le_refl a
    | cons y ys ih =>
      intro a
      exact le_trans (ih (min a y)) (min_le_left a y)
  have aux2 : ∀ (xs : List ℕ) (a x : ℕ), x ∈ xs → xs.foldl min a ≤ x := by
    intro xs
    induction xs with
    | nil => intro a x hx; simp at hx
    | cons y ys ih =>
      intro a x hx
      rcases List.mem_cons.mp hx with rfl | hx
      · exact le_trans (aux ys (min a x)) (min_le_right a x)
      · exact ih (min a y) x hx
  intro l x hx
  match l, hx with
  | y :: ys, hx =>
    rcases List.mem_cons.mp hx with rfl | hx
    · exact aux ys x
    · exact aux2 ys y x hx

/-- Any suffix of `R.reverse` is the reversal of a prefix of `R`. -/
theorem suffix_of_reverse (v R : List Char) (h : v <:+ R.reverse) :
    ∃ j, j ≤ R.length ∧ v = (R.take j).reverse := by
  obtain ⟨t, ht⟩ := h
  refine ⟨v.length, ?_, ?_⟩
  · have := congrArg List.length ht
    simp at this
    omega
  · have hR : v.reverse ++ t.reverse = R := by
      have := congrArg List.reverse ht
      simpa using this
    rw [← hR, List.take_left' (by simp), List.reverse_reverse]

/-- The early-abort soundness fact: some entry of the current row is a lower
bound for the distance that the full computation would return. -/
theorem row_entry_le (A u R : List Char) :
    ∃ d ∈ rowFrom A [] R, d ≤ lev (u ++ A) R.reverse := by
  have h := le_levenshtein_append (C := Levenshtein.defaultCost) R.reverse u A
  obtain ⟨v, hv, hle⟩ := h
  obtain ⟨j, hj, rfl⟩ := suffix_of_reverse v R hv
  refine ⟨lev A ((R.take j).reverse ++ []), ?_, ?_⟩
  · exact rowFrom_mem A R [] j hj
  · rw [List.append_nil]
    calc lev A (R.take j).reverse = lev (R.take j).reverse A := lev_comm _ _
    _ ≤ lev R.reverse (u ++ A) := hle
    _ = lev (u ++ A) R.reverse := lev_comm _ _

theorem dpLoop_spec (maxD : ℕ) (R : List Char) :
    ∀ (ls A : List Char),
      (lev (ls.reverse ++ A) R.reverse ≤ maxD →
        dpLoop maxD R ls (A.length + 1) (rowFrom A [] R) = lev (ls.reverse ++ A) R.reverse) ∧
      (maxD < lev (ls.reverse ++ A) R.reverse →
        maxD < dpLoop maxD R ls (A.length + 1) (rowFrom A [] R)) := by
  intro ls
  induction ls with
  | nil =>
    intro A
    have : dpLoop maxD R [] (A.length + 1) (rowFrom A [] R) = lev A (R.reverse ++ []) := by
      rw [← rowFrom_getLastD A R []]; rfl
    simp only [List.reverse_nil, List.nil_append, List.append_nil] at this ⊢
    constructor
    · intro _; exact this
    · intro h; omega
  | cons l ls ih =>
    intro A
    have harr : (l :: ls).reverse ++ A = ls.reverse ++ (l :: A) := by
      simp [List.reverse_cons, List.append_assoc]
    have hrow : dpRow l (A.length + 1) R (rowFrom A [] R) = rowFrom (l :: A) [] R :=
      dpRow_spec l A R
    have hstep : dpLoop maxD R (l :: ls) (A.length + 1) (rowFrom A [] R) =
        if maxD < minD (rowFrom (l :: A) [] R) then maxD + 1
        else dpLoop maxD R ls (A.length + 1 + 1) (rowFrom (l :: A) [] R) := by
      rw [dpLoop, hrow]
    obtain ⟨d, hd, hdle⟩ := row_entry_le (l :: A) ls.reverse R
    have hmind : minD (rowFrom (l :: A) [] R) ≤ lev (ls.reverse ++ (l :: A)) R.reverse :=
      le_trans (minD_le_of_mem _ d hd) hdle
    have ihA := ih (l :: A)
    rw [harr, hstep]
    by_cases habort : maxD < minD (rowFrom (l :: A) [] R)
    · rw [if_pos habort]
      constructor
      · intro hle; omega
      · intro _; omega
    · rw [if_neg habort]
      simpa using ihA

theorem rowFrom_nil (rs : List Char) :
    ∀ Bq : List Char, rowFrom [] Bq rs = (List.range (rs.length + 1)).map (· + Bq.length) := by
  induction rs with
  | nil => intro Bq; simp [rowFrom, lev_nil_left, show List.range 1 = [0] from rfl]
  | cons r rs ih =>
    intro Bq
    show lev [] Bq :: rowFrom [] (r :: Bq) rs = _
    rw [List.range_succ_eq_map, List.map_cons, List.map_map, lev_nil_left, ih (r :: Bq)]
    simp only [List.length_cons, Nat.zero_add]
    congr 1
    apply List.map_congr_left
    intro j _
    simp only [Function.comp_apply, Nat.succ_eq_add_one]
    omega

theorem rowFrom_nil_nil (rs : List Char) : rowFrom [] [] rs = List.range (rs.length + 1) := by
  simpa using rowFrom_nil rs []

/-- Core bound-preservation property of `levB`, proved once and restated as
the claim theorem below. -/
theorem levB_spec_aux (a b : String) (t : ℕ) :
    (lev a.toList b.toList ≤ t → levB a b t = lev a.toList b.toList) ∧
    (t < lev a.toList b.toList → t < levB a b t) := by
  unfold levB
  split_ifs with h1 h2 h3 h4
  · subst h1
    rw [lev_self]
    omega
  · have ha : a = "" := (String.isEmpty_iff a).mp h2
    subst ha
    rw [show ("" : String).toList = [] from rfl, lev_nil_left]
    exact ⟨fun _ => rfl, fun h => h⟩
  · have hb : b = "" := (String.isEmpty_iff b).mp h3
    subst hb
    rw [show ("" : String).toList = [] from rfl, lev_nil_right]
    exact ⟨fun _ => rfl, fun h => h⟩
  · have hd : Nat.dist a.length b.length ≤ lev a.toList b.toList :=
      length_dist_le_lev a.toList b.toList
    constructor
    · intro h; omega
    · intro _; omega
  · have hrange : List.range (b.length + 1) = rowFrom [] [] b.toList := by
      rw [rowFrom_nil_nil]
      congr 1
    have h1' : (1 : ℕ) = List.length ([] : List Char) + 1 := rfl
    rw [hrange, h1']
    have h5 := dpLoop_spec t b.toList a.toList []
    rw [List.append_nil, lev_reverse] at h5
    exact h5

theorem resolveRegion_eq (m : List (String × String)) (v : String) :
    resolveRegion m v =
      if pyStrip v = "" then none
      else
        match regionMapped m v with
        | none => none
        | some x => if x = "UNKNOWN" then none else some x := rfl

theorem foldl_dict_skip (k : String) (m : List (String × String)) (acc : Option String)
    (h : ∀ p ∈ m, p.1 ≠ k) :
    m.foldl (fun acc p => if p.1 = k then some p.2 else acc) acc = acc := by
  induction m generalizing acc with
  | nil => rfl
  | cons q m ih =>
    have hq : q.1 ≠ k := h q (List.mem_cons_self q m)
    show List.foldl _ (if q.1 = k then some q.2 else acc) m = acc
    rw [if_neg hq]
    exact ih acc fun p hp => h p (List.mem_cons_of_mem q hp)

theorem dictGet_isSome_iff (m : List (String × String)) (k : String) :
    (dictGet m k).isSome ↔ k ∈ m.map Prod.fst := by
  have aux : ∀ (m : List (String × String)) (acc : Option String),
      (m.foldl (fun acc p => if p.1 = k then some p.2 else acc) acc).isSome ↔
        (acc.isSome ∨ k ∈ m.map Prod.fst) := by
    intro m
    induction m with
    | nil => intro acc; simp
    | cons q m ih =>
      intro acc
      show (m.foldl _ (if q.1 = k then some q.2 else acc)).isSome ↔ _
      rw [ih]
      by_cases hq : q.1 = k
      · simp [hq]
      · simp only [if_neg hq, List.map_cons, List.mem_cons]
        constructor
        · rintro (h | h)
          · exact Or.inl h
          · exact Or.inr (Or.inr h)
        · rintro (h | h | h)
          · exact Or.inl h
          · exact absurd h.symm hq
          · exact Or.inr h
  rw [dictGet, aux m none]
  simp

theorem pyLower_eq_empty_iff (s : String) : pyLower s = "" ↔ s = "" := by
  constructor
  · intro h
    have h2 : s.data.map Char.toLower = [] := congrArg String.data h
    have h3 : s.data = [] := List.map_eq_nil_iff.mp h2
    apply String.ext
    simpa using h3
  · intro h; subst h; rfl

theorem dictGet_empty_key_none (m : List (String × String))
    (hkeys : ∀ p ∈ m, p.1 ≠ "") : dictGet m "" = none :=
  foldl_dict_skip "" m none hkeys

/-- Claim C6: region exactness: resolution succeeds exactly when the trimmed value (or
its case-folded form) is a key of the alias map (resp. of its case-folded
copy) and the mapped target is not the "UNKNOWN" sentinel; the result is the
mapped target; in every other case resolution returns no match. -/
theorem resolveRegion_correct (m : List (String × String))
    (hkeys : ∀ p ∈ m, p.1 ≠ "") (v : String) :
    (∀ c, resolveRegion m v = some c ↔ (regionMapped m v = some c ∧ c ≠ "UNKNOWN")) ∧
    ((regionMapped m v).isSome ↔
      (pyStrip v ∈ m.map Prod.fst ∨ pyLower (pyStrip v) ∈ (casefoldEntries m).map Prod.fst)) := by
  have hmain : ∀ c, resolveRegion m v = some c ↔ (regionMapped m v = some c ∧ c ≠ "UNKNOWN") := by
    intro c
    rw [resolveRegion_eq]
    by_cases hemp : pyStrip v = ""
    · rw [if_pos hemp]
      have h1 : dictGet m (pyStrip v) = none := by
        rw [hemp]; exact dictGet_empty_key_none m hkeys
      have h2 : dictGet (casefoldEntries m) (pyLower (pyStrip v)) = none := by
        rw [hemp, show pyLower "" = "" from rfl]
        apply dictGet_empty_key_none
        intro p hp
        obtain ⟨q, hq, rfl⟩ := List.mem_map.mp hp
        exact fun hcontra => hkeys q hq ((pyLower_eq_empty_iff q.1).mp hcontra)
      have h3 : regionMapped m v = none := by
        rw [regionMapped, h1, h2]
      rw [h3]
      simp
    · rw [if_neg hemp]
      rcases h : regionMapped m v with _ | x
      · simp
      · show (if x = "UNKNOWN" then none else some x) = some c ↔ _
        by_cases hx : x = "UNKNOWN"
        · subst hx
          rw [if_pos rfl]
          constructor
          · intro hcontra; exact absurd hcontra (by simp)
          · rintro ⟨hxc, hne⟩
            exact absurd (Option.some.inj hxc).symm hne
        · rw [if_neg hx]
          constructor
          · rintro h2
            have hxc : x = c := Option.some.inj h2
            subst hxc
            exact ⟨rfl, hx⟩
          · rintro ⟨h2, _⟩
            exact h2
  refine ⟨hmain, ?_⟩
  rw [regionMapped]
  rcases hdg : dictGet m (pyStrip v) with _ | x
  · rcases hcf : dictGet (casefoldEntries m) (pyLower (pyStrip v)) with _ | y
    · simp only [Option.isSome_none]
      constructor
      · intro h; exact absurd h (by simp)
      · rintro (h | h)
        · have := (dictGet_isSome_iff m (pyStrip v)).mpr h
          rw [hdg] at this; exact absurd this (by simp)
        · have := (dictGet_isSome_iff (casefoldEntries m) (pyLower (pyStrip v))).mpr h
          rw [hcf] at this; exact absurd this (by simp)
    · constructor
      · intro _
        right
        have h5 : (dictGet (casefoldEntries m) (pyLower (pyStrip v))).isSome := by
          rw [hcf]; rfl
        exact (dictGet_isSome_iff _ _).mp h5
      · intro _; rfl
  · constructor
    · intro _
      left
      have h5 : (dictGet m (pyStrip v)).isSome := by rw [hdg]; rfl
      exact (dictGet_isSome_iff _ _).mp h5
    · intro _; rfl

theorem cost_eq_zero_iff (a b : Char) : cost a b = 0 ↔ a = b := by
  unfold cost
  by_cases h : a = b <;> simp [h]

theorem lev_eq_zero_iff (A : List Char) : ∀ B, lev A B = 0 ↔ A = B := by
  induction A with
  | nil =>
    intro B
    rw [lev_nil_left]
    constructor
    · intro h; exact (List.length_eq_zero.mp h).symm
    · intro h; subst h; rfl
  | cons a A ih =>
    intro B
    cases B with
    | nil =>
      rw [lev_nil_right]
      simp
    | cons b B =>
      rw [lev_cons_cons]
      constructor
      · intro h
        have hc : cost a b = 0 := by omega
        have hl : lev A B = 0 := by omega
        rw [(ih B).mp hl, (cost_eq_zero_iff a b).mp hc]
      · intro h
        injection h with h1 h2
        subst h1
        subst h2
        rw [lev_self, cost_self]
        omega

theorem fuzzyLoop_cons (lowered c : String) (cs : List String) (best : Option String) (bestD : ℕ) :
    fuzzyLoop lowered (c :: cs) best bestD =
      if (if levB lowered (pyLower c) 2 < bestD then levB lowered (pyLower c) 2 else bestD) = 0
      then ((if levB lowered (pyLower c) 2 < bestD then some c else best),
            (if levB lowered (pyLower c) 2 < bestD then levB lowered (pyLower c) 2 else bestD))
      else fuzzyLoop lowered cs (if levB lowered (pyLower c) 2 < bestD then some c else best)
             (if levB lowered (pyLower c) 2 < bestD then levB lowered (pyLower c) 2 else bestD) :=
  rfl

theorem fuzzySpec_cons (lowered c : String) (cs : List String) (b : Option String) (bd : ℕ) :
    fuzzySpec lowered (c :: cs) b bd =
      if catDist lowered c < bd then fuzzySpec lowered cs (some c) (catDist lowered c)
      else fuzzySpec lowered cs b bd := rfl

theorem fuzzySpec_zero (lowered : String) :
    ∀ cs b, fuzzySpec lowered cs b 0 = (b, 0) := by
  intro cs
  induction cs with
  | nil => intro b; rfl
  | cons c cs ih =>
    intro b
    rw [fuzzySpec_cons, if_neg (by omega)]
    exact ih b

/-- Claim C7: full behaviour of `_levenshtein`: whenever the true distance is within the
bound it is returned exactly; whenever it exceeds the bound, the returned
value also exceeds the bound.  Neither early exit changes which side of the
threshold the result falls on. -/
theorem levB_spec (a b : String) (t : ℕ) :
    (lev a.toList b.toList ≤ t → levB a b t = lev a.toList b.toList) ∧
    (t < lev a.toList b.toList → t < levB a b t) :=
  levB_spec_aux a b t

theorem fuzzyLoop_eq_spec (lowered : String) :
    ∀ (cs : List String) (best : Option String) (bestD : ℕ), bestD ≤ 3 →
      fuzzyLoop lowered cs best bestD = fuzzySpec lowered cs best bestD := by
  intro cs
  induction cs with
  | nil => intro best bestD _; rfl
  | cons c cs ih =>
    intro best bestD hbd
    have hlev : (catDist lowered c ≤ 2 →
          levB lowered (pyLower c) 2 = catDist lowered c) ∧
        (2 < catDist lowered c → 2 < levB lowered (pyLower c) 2) :=
      levB_spec_aux lowered (pyLower c) 2
    rw [fuzzyLoop_cons, fuzzySpec_cons]
    by_cases hlt : catDist lowered c < bestD
    · have hle2 : catDist lowered c ≤ 2 := by omega
      have hd : levB lowered (pyLower c) 2 = catDist lowered c := hlev.1 hle2
      rw [hd]
      simp only [if_pos hlt]
      by_cases h0 : catDist lowered c = 0
      · rw [if_pos h0, h0, fuzzySpec_zero]
      · rw [if_neg h0, ih (some c) (catDist lowered c) (by omega)]
    · have hge : ¬ levB lowered (pyLower c) 2 < bestD := by
        by_cases hc2 : catDist lowered c ≤ 2
        · rw [hlev.1 hc2]; exact hlt
        · have h3 := hlev.2 (by omega)
          omega
      simp only [if_neg hge, if_neg hlt]
      by_cases h0 : bestD = 0
      · rw [if_pos h0, h0, fuzzySpec_zero]
      · rw [if_neg h0, ih best bestD hbd]

theorem fuzzySpec_snd (lowered : String) :
    ∀ (cs : List String) (b : Option String) (bd : ℕ),
      (fuzzySpec lowered cs b bd).2 =
        cs.foldl (fun acc c => min acc (catDist lowered c)) bd := by
  intro cs
  induction cs with
  | nil => intro b bd; rfl
  | cons c cs ih =>
    intro b bd
    rw [fuzzySpec_cons, List.foldl_cons]
    by_cases hlt : catDist lowered c < bd
    · rw [if_pos hlt, ih, show min bd (catDist lowered c) = catDist lowered c by omega]
    · rw [if_neg hlt, ih, show min bd (catDist lowered c) = bd by omega]

theorem foldl_min_le_init (f : String → ℕ) :
    ∀ (cs : List String) (init : ℕ), cs.foldl (fun acc c => min acc (f c)) init ≤ init := by
  intro cs
  induction cs with
  | nil => intro init; exact le_refl init
  | cons c cs ih =>
    intro init
    rw [List.foldl_cons]
    calc cs.foldl _ (min init (f c)) ≤ min init (f c) := ih (min init (f c))
    _ ≤ init := min_le_left _ _

theorem foldl_min_attain (f : String → ℕ) :
    ∀ (cs : List String) (init : ℕ),
      cs.foldl (fun acc c => min acc (f c)) init = init ∨
        ∃ c ∈ cs, f c = cs.foldl (fun acc c => min acc (f c)) init := by
  intro cs
  induction cs with
  | nil => intro init; exact Or.inl rfl
  | cons c cs ih =>
    intro init
    rw [List.foldl_cons]
    rcases ih (min init (f c)) with h | ⟨x, hx, hfx⟩
    · by_cases hlt : f c < init
      · right
        refine ⟨c, List.mem_cons_self c cs, ?_⟩
        rw [h]; omega
      · left
        rw [h]; omega
    · right
      exact ⟨x, List.mem_cons_of_mem c hx, hfx⟩

theorem fuzzySpec_fst (lowered : String) :
    ∀ (cs : List String) (b : Option String) (bd : ℕ),
      (fuzzySpec lowered cs b bd).1 =
        if (cs.foldl (fun acc c => min acc (catDist lowered c)) bd) < bd
        then cs.find? (fun c => catDist lowered c =
          cs.foldl (fun acc c => min acc (catDist lowered c)) bd)
        else b := by
  intro cs
  induction cs with
  | nil =>
    intro b bd
    show b = if bd < bd then _ else b
    rw [if_neg (by omega)]
  | cons c cs ih =>
    intro b bd
    rw [fuzzySpec_cons]
    by_cases hlt : catDist lowered c < bd
    · have hstep : (c :: cs).foldl (fun acc c => min acc (catDist lowered c)) bd
          = cs.foldl (fun acc c => min acc (catDist lowered c)) (catDist lowered c) := by
        rw [List.foldl_cons, show min bd (catDist lowered c) = catDist lowered c by omega]
      rw [if_pos hlt, ih (some c) (catDist lowered c), hstep]
      have hF2le : cs.foldl (fun acc c => min acc (catDist lowered c)) (catDist lowered c) ≤
          catDist lowered c := foldl_min_le_init _ cs _
      set F2 := cs.foldl (fun acc c => min acc (catDist lowered c)) (catDist lowered c) with hF2
      rw [if_pos (show F2 < bd by omega)]
      by_cases heq : F2 < catDist lowered c
      · rw [if_pos heq, List.find?_cons_of_neg]
        simp only [decide_eq_true_eq]
        omega
      · have heq2 : catDist lowered c = F2 := by omega
        rw [if_neg heq, List.find?_cons_of_pos]
        simp only [decide_eq_true_eq]
        exact heq2
    · have hstep : (c :: cs).foldl (fun acc c => min acc (catDist lowered c)) bd
          = cs.foldl (fun acc c => min acc (catDist lowered c)) bd := by
        rw [List.foldl_cons, show min bd (catDist lowered c) = bd by omega]
      rw [if_neg hlt, ih b bd, hstep]
      set F2 := cs.foldl (fun acc c => min acc (catDist lowered c)) bd with hF2
      by_cases hF2lt : F2 < bd
      · rw [if_pos hF2lt, if_pos hF2lt, List.find?_cons_of_neg]
        simp only [decide_eq_true_eq]
        omega
      · rw [if_neg hF2lt, if_neg hF2lt]

theorem canonLookup_eq_dictGet (cats : List String) (key : String) :
    canonLookup cats key = dictGet (cats.map fun c => (pyLower c, c)) key := by
  rw [canonLookup, dictGet, List.foldl_map]

theorem dictGet_append_singleton (m : List (String × String)) (q : String × String) (k : String) :
    dictGet (m ++ [q]) k = if q.1 = k then some q.2 else dictGet m k := by
  rw [dictGet, List.foldl_append]
  rfl

theorem dictGet_some_mem (k x : String) :
    ∀ (m : List (String × String)), dictGet m k = some x → (k, x) ∈ m := by
  intro m
  induction m using List.reverseRecOn with
  | nil => intro h; exact absurd h (by simp [dictGet])
  | append_singleton m q ih =>
    intro h
    rw [dictGet_append_singleton] at h
    by_cases hq : q.1 = k
    · rw [if_pos hq] at h
      have : q.2 = x := Option.some.inj h
      have hqe : q = (k, x) := by
        cases q
        simp_all
      rw [hqe] at *
      exact List.mem_append_right m (List.mem_singleton.mpr rfl)
    · rw [if_neg hq] at h
      exact List.mem_append_left _ (ih h)

theorem canonLookup_some (cats : List String) (key c : String)
    (h : canonLookup cats key = some c) : c ∈ cats ∧ pyLower c = key := by
  rw [canonLookup_eq_dictGet] at h
  have hmem := dictGet_some_mem key c _ h
  obtain ⟨c', hc', heq⟩ := List.mem_map.mp hmem
  injection heq with h1 h2
  subst h2
  exact ⟨hc', h1⟩

theorem canonLookup_isSome_iff (cats : List String) (key : String) :
    (canonLookup cats key).isSome ↔ key ∈ cats.map pyLower := by
  rw [canonLookup_eq_dictGet, dictGet_isSome_iff, List.map_map]
  rfl

theorem find?_unique {p : String → Bool} {c : String} :
    ∀ {l : List String}, c ∈ l → p c = true → (∀ x ∈ l, p x = true → x = c) →
      l.find? p = some c := by
  intro l
  induction l with
  | nil => intro hc; exact absurd hc (List.not_mem_nil c)
  | cons a l ih =>
    intro hc hpc huniq
    by_cases hpa : p a = true
    · rw [List.find?_cons_of_pos _ hpa]
      rw [huniq a (List.mem_cons_self a l) hpa]
    · rw [List.find?_cons_of_neg _ (by simpa using hpa)]
      have hca : c ≠ a := fun h => hpa (h ▸ hpc)
      have hcl : c ∈ l := by
        rcases List.mem_cons.mp hc with h | h
        · exact absurd h hca
        · exact h
      exact ih hcl hpc fun x hx hpx => huniq x (List.mem_cons_of_mem a hx) hpx

theorem foldl_min_le_mem (f : String → ℕ) :
    ∀ (cs : List String) (init : ℕ) (c : String), c ∈ cs →
      cs.foldl (fun acc c => min acc (f c)) init ≤ f c := by
  intro cs
  induction cs with
  | nil => intro init c hc; exact absurd hc (List.not_mem_nil c)
  | cons a cs ih =>
    intro init c hc
    rw [List.foldl_cons]
    rcases List.mem_cons.mp hc with rfl | hc
    · calc cs.foldl _ (min init (f c)) ≤ min init (f c) := foldl_min_le_init f cs _
      _ ≤ f c := min_le_right _ _
    · exact ih (min init (f a)) c hc

theorem resolveCategory_eq (cats : List String) (v : String) :
    resolveCategory cats v =
      if pyStrip v = "" then none
      else
        match canonLookup cats (pyLower (pyStrip v)) with
        | some c => some c
        | none =>
          match fuzzyLoop (pyLower (pyStrip v)) cats none (2 + 1) with
          | (some m, bestD) => if bestD ≤ 2 then some m else none
          | (none, _) => none := rfl

theorem specResolveCategory_eq (cats : List String) (v : String) :
    specResolveCategory cats v =
      if pyStrip v = "" then none
      else
        if (cats.foldl (fun acc c => min acc (catDist (pyLower (pyStrip v)) c)) (2 + 1)) ≤ 2
        then cats.find? (fun c => catDist (pyLower (pyStrip v)) c =
          cats.foldl (fun acc c => min acc (catDist (pyLower (pyStrip v)) c)) (2 + 1))
        else none := rfl

/-- Claim C2 (amended): category fuzzy-match bound: for nonempty-after-trim inputs, and
a canonical list with pairwise-distinct case-foldings, `_resolve_category`
returns the first minimal-distance candidate when the minimal distance is
within the threshold, and no match otherwise. -/
theorem resolveCategory_correct (cats : List String) (v : String)
    (hcf : (cats.map pyLower).Nodup) (hne : pyStrip v ≠ "") :
    resolveCategory cats v = specResolveCategory cats v := by
  rw [resolveCategory_eq, specResolveCategory_eq, if_neg hne, if_neg hne]
  set lowered := pyLower (pyStrip v) with hlow
  set dmin := cats.foldl (fun acc c => min acc (catDist lowered c)) (2 + 1) with hdmin
  rcases hcl : canonLookup cats lowered with _ | c
  · -- no exact case-insensitive match: the fuzzy loop decides
    rw [fuzzyLoop_eq_spec lowered cats none (2 + 1) (by omega)]
    have hsnd := fuzzySpec_snd lowered cats none (2 + 1)
    have hfst := fuzzySpec_fst lowered cats none (2 + 1)
    rcases heq : fuzzySpec lowered cats none (2 + 1) with ⟨bm, bd⟩
    rw [heq] at hsnd hfst
    simp only at hsnd hfst
    rw [← hdmin] at hsnd hfst
    by_cases hle : dmin ≤ 2
    · rw [if_pos (show dmin < 2 + 1 by omega)] at hfst
      have hex : ∃ c ∈ cats, catDist lowered c = dmin := by
        rcases foldl_min_attain (catDist lowered) cats (2 + 1) with h | h
        · rw [← hdmin] at h; omega
        · rw [← hdmin] at h; exact h
      obtain ⟨cw, hcw, hcwd⟩ := hex
      have hfind : (cats.find? (fun c => catDist lowered c = dmin)).isSome := by
        rw [List.find?_isSome]
        exact ⟨cw, hcw, by simpa using hcwd⟩
      obtain ⟨m', hm'⟩ := Option.isSome_iff_exists.mp hfind
      rw [hm'] at hfst
      rw [hfst, hsnd]
      show (if dmin ≤ 2 then some m' else none) = _
      rw [if_pos hle, if_pos hle, hm']
    · have hd3 : dmin = 2 + 1 := by
        have h9 := foldl_min_le_init (catDist lowered) cats (2 + 1)
        rw [← hdmin] at h9
        omega
      rw [if_neg (show ¬ dmin < 2 + 1 by omega)] at hfst
      rw [hfst, hsnd]
      show none = _
      rw [if_neg hle]
  · -- exact case-insensitive hit
    obtain ⟨hcmem, hckey⟩ := canonLookup_some cats lowered c hcl
    have hc0 : catDist lowered c = 0 := by
      rw [catDist, hckey]
      exact lev_self _
    have hdle : dmin = 0 := by
      have h1 := foldl_min_le_mem (catDist lowered) cats (2 + 1) c hcmem
      rw [← hdmin] at h1
      omega
    have hfind : cats.find? (fun x => catDist lowered x = dmin) = some c := by
      apply find?_unique hcmem
      · simp only [decide_eq_true_eq]
        omega
      · intro x hx hpx
        simp only [decide_eq_true_eq] at hpx
        rw [hdle] at hpx
        have hxl : lowered.toList = (pyLower x).toList := (lev_eq_zero_iff _ _).mp hpx
        have hxe : pyLower x = lowered := String.toList_inj.mp hxl.symm
        exact List.inj_on_of_nodup_map hcf hx hcmem (by rw [hxe, hckey])
    show some c = if dmin ≤ 2 then _ else none
    rw [if_pos (by omega), hfind]

/-- The anomaly-flag write is a no-op on rows without a heavy discount, so
the `any`-guard around it does not change the frame. -/
theorem map_anomStep_of_no_heavy {l : List Row} (h : l.any heavyDisc = false) :
    l.map anomStep = l := by
  induction l with
  | nil => rfl
  | cons r rs ih =>
    simp only [List.any_cons, Bool.or_eq_false_iff] at h
    have h1 := h.1
    simp only [heavyDisc, decide_eq_false_iff_not] at h1
    simp only [List.map_cons, ih h.2, anomStep, if_neg h1]

theorem anomGuard (l : List Row) :
    (if l.any heavyDisc = true then l.map anomStep else l) = l.map anomStep := by
  split
  · rfl
  · next h =>
    exact (map_anomStep_of_no_heavy (Bool.not_eq_true _ |>.mp h)).symm

theorem any_filter (l : List Row) (p q : Row → Bool) :
    (l.filter p).any q = l.any (fun a => q a && p a) := by
  induction l with
  | nil => rfl
  | cons r rs ih =>
    by_cases h : p r
    · simp [List.filter_cons, h, List.any_cons, ih, Bool.and_comm]
    · simp only [Bool.not_eq_true] at h
      simp [List.filter_cons, h, List.any_cons, ih]

set_option maxHeartbeats 1000000 in
theorem cleanChunk_parts (ctx : Ctx) (cfg : CleanConfig) (frame : List Row)
    (seen : List String) :
    cleanChunk ctx cfg frame seen =
      { cleaned := ((dedupKeep frame).filter (survRev ctx cfg seen)).map (lateT9 ctx),
        columns := baseColumns ++
          (if (dedupKeep frame).any (heavySurv ctx seen) then ["anomaly_flag"] else []),
        rejected := if cfg.save_rejected_rows then
            List.map (fun r => (normStep r, "missing_order_id_or_product"))
              (frame.filter (fun r => !(maskIds (normStep r)))) ++
            List.map (fun r => (r, "duplicate_order_id")) (dedupRej frame) ++
            List.map (fun r => (r, "duplicate_order_id"))
              ((dedupKeep frame).filter (fun r => seen.contains (cellS r.order_id))) ++
            List.map (fun r => (r, "unknown_category"))
              ((dedupKeep frame).filter (fun r => !(maskCat ctx r) && survBase seen r)) ++
            List.map (fun r => (catStep ctx r, "unknown_region"))
              ((dedupKeep frame).filter
                (fun r => !(maskReg ctx (catStep ctx r)) && survCat ctx seen r)) ++
            List.map (fun r => (lateT5 ctx r, "invalid_unit_price"))
              ((dedupKeep frame).filter
                (fun r => !(maskPrice (lateT5 ctx r)) && survReg ctx seen r)) ++
            (if cfg.drop_zero_quantity then
              List.map (fun r => (lateT6 ctx r, "zero_quantity"))
                ((dedupKeep frame).filter
                  (fun r => !(maskQty (lateT6 ctx r)) && survPrice ctx seen r))
             else []) ++
            List.map (fun r => (lateT7 ctx r, "invalid_sale_date"))
              ((dedupKeep frame).filter
                (fun r => !(maskDate (lateT7 ctx r)) && survQty ctx cfg seen r)) ++
            List.map (fun r => (lateT7 ctx r, "sale_date_out_of_range"))
              ((dedupKeep frame).filter
                (fun r => !(maskRange ctx (lateT7 ctx r)) && survDate ctx cfg seen r)) ++
            List.map (fun r => (lateT9 ctx r, "invalid_calculated_revenue"))
              ((dedupKeep frame).filter
                (fun r => !(maskRev (lateT9 ctx r)) && survRange ctx cfg seen r))
          else [],
        seen := seen ++ ((dedupKeep frame).filter (survRev ctx cfg seen)).map
          (fun r => cellS (lateT9 ctx r).order_id) } := by
  obtain ⟨n, dz, sr⟩ := cfg
  simp only [cleanChunk, rejectRows, anomGuard]
  cases dz <;> cases sr <;>
    simp only [Bool.false_eq_true, eq_self_iff_true, if_true, if_false, List.filter_map, List.filter_filter, List.map_map, List.any_map,
      any_filter, Bool.not_not] <;>
    rfl

theorem chunkFates_length (ctx : Ctx) (cfg : CleanConfig) (seen : List String) :
    ∀ (frame : List Row) (acc : List String),
      (chunkFates ctx cfg seen acc frame).length = frame.length := by
  intro frame
  induction frame with
  | nil => intro acc; rfl
  | cons r rs ih => intro acc; simp [chunkFates, ih]

set_option maxHeartbeats 1600000 in
theorem chunkFates_spec (ctx : Ctx) (cfg : CleanConfig) (seen : List String) :
    ∀ (frame : List Row) (acc : List String),
      ((chunkFates ctx cfg seen acc frame).filterMap Sum.getLeft? =
        ((dedupGo acc (normFiltered frame)).1.filter (fun r => survRev ctx cfg seen r)).map
          (fun r => lateT9 ctx r))
    ∧ ((chunkFates ctx cfg seen acc frame).filterMap (rejAt 0) =
        (frame.filter (fun r => !(maskIds (normStep r)))).map
          (fun r => (normStep r, "missing_order_id_or_product")))
    ∧ ((chunkFates ctx cfg seen acc frame).filterMap (rejAt 1) =
        ((dedupGo acc (normFiltered frame)).2).map (fun r => (r, "duplicate_order_id")))
    ∧ ((chunkFates ctx cfg seen acc frame).filterMap (rejAt 2) =
        ((dedupGo acc (normFiltered frame)).1.filter
          (fun r => seen.contains (cellS r.order_id))).map (fun r => (r, "duplicate_order_id")))
    ∧ ((chunkFates ctx cfg seen acc frame).filterMap (rejAt 3) =
        ((dedupGo acc (normFiltered frame)).1.filter
          (fun r => !(maskCat ctx r) && survBase seen r)).map (fun r => (r, "unknown_category")))
    ∧ ((chunkFates ctx cfg seen acc frame).filterMap (rejAt 4) =
        ((dedupGo acc (normFiltered frame)).1.filter
          (fun r => !(maskReg ctx (catStep ctx r)) && survCat ctx seen r)).map
          (fun r => (catStep ctx r, "unknown_region")))
    ∧ ((chunkFates ctx cfg seen acc frame).filterMap (rejAt 5) =
        ((dedupGo acc (normFiltered frame)).1.filter
          (fun r => !(maskPrice (lateT5 ctx r)) && survReg ctx seen r)).map
          (fun r => (lateT5 ctx r, "invalid_unit_price")))
    ∧ ((chunkFates ctx cfg seen acc frame).filterMap (rejAt 6) =
        if cfg.drop_zero_quantity then
          ((dedupGo acc (normFiltered frame)).1.filter
            (fun r => !(maskQty (lateT6 ctx r)) && survPrice ctx seen r)).map
            (fun r => (lateT6 ctx r, "zero_quantity"))
        else [])
    ∧ ((chunkFates ctx cfg seen acc frame).filterMap (rejAt 7) =
        ((dedupGo acc (normFiltered frame)).1.filter
          (fun r => !(maskDate (lateT7 ctx r)) && survQty ctx cfg seen r)).map
          (fun r => (lateT7 ctx r, "invalid_sale_date")))
    ∧ ((chunkFates ctx cfg seen acc frame).filterMap (rejAt 8) =
        ((dedupGo acc (normFiltered frame)).1.filter
          (fun r => !(maskRange ctx (lateT7 ctx r)) && survDate ctx cfg seen r)).map
          (fun r => (lateT7 ctx r, "sale_date_out_of_range")))
    ∧ ((chunkFates ctx cfg seen acc frame).filterMap (rejAt 9) =
        ((dedupGo acc (normFiltered frame)).1.filter
          (fun r => !(maskRev (lateT9 ctx r)) && survRange ctx cfg seen r)).map
          (fun r => (lateT9 ctx r, "invalid_calculated_revenue"))) := by
  intro frame
  induction frame with
  | nil =>
    intro acc
    simp [chunkFates, normFiltered, dedupGo]
  | cons r rs ih =>
    intro acc
    by_cases h0 : maskIds (normStep r) = true
    case neg =>
      obtain ⟨A, B0, B1, B2, B3, B4, B5, B6, B7, B8, B9⟩ := ih acc
      have hf : rowFate ctx cfg seen acc r = .inr (normStep r, 0) := by
        simp [rowFate, h0]
      refine ⟨?_, ?_, ?_, ?_, ?_, ?_, ?_, ?_, ?_, ?_, ?_⟩ <;>
        simp [chunkFates, h0, hf, normFiltered, rejAt, stageReason, A, B0, B1, B2, B3, B4, B5, B6, B7,
          B8, B9, List.filter_cons, List.filterMap_cons]
    case pos =>
      obtain ⟨A, B0, B1, B2, B3, B4, B5, B6, B7, B8, B9⟩ :=
        ih (cellS (normStep r).order_id :: acc)
      have hnf : normFiltered (r :: rs) = normStep r :: normFiltered rs := by
        simp [normFiltered, List.filter_cons, h0]
      by_cases h1 : acc.contains (cellS (normStep r).order_id) = true
      · -- within-chunk duplicate
        have h1m : cellS (normStep r).order_id ∈ acc := by simpa using h1
        have hf : rowFate ctx cfg seen acc r = .inr (normStep r, 1) := by
          simp [rowFate, h0, h1m]
        refine ⟨?_, ?_, ?_, ?_, ?_, ?_, ?_, ?_, ?_, ?_, ?_⟩ <;>
          simp [chunkFates, h0, h1, h1m, hf, hnf, dedupGo, rejAt, stageReason, A, B0, B1, B2, B3, B4, B5,
            B6, B7, B8, B9, List.filter_cons, List.filterMap_cons]
      · have h1m : cellS (normStep r).order_id ∉ acc := by simpa using h1
        by_cases h2 : seen.contains (cellS (normStep r).order_id) = true
        · -- cross-chunk duplicate
          have h2m : cellS (normStep r).order_id ∈ seen := by simpa using h2
          have hf : rowFate ctx cfg seen acc r = .inr (normStep r, 2) := by
            simp [rowFate, h0, h1m, h2m]
          refine ⟨?_, ?_, ?_, ?_, ?_, ?_, ?_, ?_, ?_, ?_, ?_⟩ <;>
            simp [chunkFates, h0, h1m, h2m, hf, hnf, dedupGo, rejAt, stageReason, A, B0, B1, B2, B3, B4,
              B5, B6, B7, B8, B9, List.filter_cons, List.filterMap_cons, survRev,
              survRange, survDate, survQty, survPrice, survReg, survCat, survBase] <;> (try (cases hdzc : cfg.drop_zero_quantity <;> simp_all))
        · have h2m : cellS (normStep r).order_id ∉ seen := by simpa using h2
          by_cases h3 : maskCat ctx (normStep r) = true
          case neg =>
            have hf : rowFate ctx cfg seen acc r = .inr (normStep r, 3) := by
              simp [rowFate, h0, h1m, h2m, h3]
            refine ⟨?_, ?_, ?_, ?_, ?_, ?_, ?_, ?_, ?_, ?_, ?_⟩ <;>
              simp [chunkFates, h0, h1m, h2m, h3, hf, hnf, dedupGo, rejAt, stageReason, A, B0, B1, B2,
                B3, B4, B5, B6, B7, B8, B9, List.filter_cons, List.filterMap_cons,
                survRev, survRange, survDate, survQty, survPrice, survReg, survCat,
                survBase] <;> (try (cases hdzc : cfg.drop_zero_quantity <;> simp_all))
          case pos =>
            by_cases h4 : maskReg ctx (catStep ctx (normStep r)) = true
            case neg =>
              have hf : rowFate ctx cfg seen acc r = .inr (catStep ctx (normStep r), 4) := by
                simp [rowFate, h0, h1m, h2m, h3, h4]
              refine ⟨?_, ?_, ?_, ?_, ?_, ?_, ?_, ?_, ?_, ?_, ?_⟩ <;>
                simp [chunkFates, h0, h1m, h2m, h3, h4, hf, hnf, dedupGo, rejAt, stageReason, A, B0, B1,
                  B2, B3, B4, B5, B6, B7, B8, B9, List.filter_cons, List.filterMap_cons,
                  survRev, survRange, survDate, survQty, survPrice, survReg, survCat,
                  survBase] <;> (try (cases hdzc : cfg.drop_zero_quantity <;> simp_all))
            case pos =>
              by_cases h5 : maskPrice (lateT5 ctx (normStep r)) = true
              case neg =>
                have hf : rowFate ctx cfg seen acc r = .inr (lateT5 ctx (normStep r), 5) := by
                  simp [rowFate, h0, h1m, h2m, h3, h4, h5]
                refine ⟨?_, ?_, ?_, ?_, ?_, ?_, ?_, ?_, ?_, ?_, ?_⟩ <;>
                  simp [chunkFates, h0, h1m, h2m, h3, h4, h5, hf, hnf, dedupGo, rejAt, stageReason, A,
                    B0, B1, B2, B3, B4, B5, B6, B7, B8, B9, List.filter_cons,
                    List.filterMap_cons, survRev, survRange, survDate, survQty, survPrice,
                    survReg, survCat, survBase] <;> (try (cases hdzc : cfg.drop_zero_quantity <;> simp_all))
              case pos =>
                by_cases h6 : (cfg.drop_zero_quantity &&
                    !(maskQty (lateT6 ctx (normStep r)))) = true
                case pos =>
                  have hdz : cfg.drop_zero_quantity = true := by
                    revert h6; cases cfg.drop_zero_quantity <;> simp
                  have hq' : maskQty (lateT6 ctx (normStep r)) = false := by
                    revert h6; cases maskQty (lateT6 ctx (normStep r)) <;> simp
                  have hf : rowFate ctx cfg seen acc r =
                      .inr (lateT6 ctx (normStep r), 6) := by
                    simp [rowFate, h0, h1m, h2m, h3, h4, h5, hdz, hq']
                  refine ⟨?_, ?_, ?_, ?_, ?_, ?_, ?_, ?_, ?_, ?_, ?_⟩ <;>
                    simp [chunkFates, h0, h1m, h2m, h3, h4, h5, hdz, hq', hf, hnf, dedupGo,
                      rejAt, stageReason, A, B0, B1, B2, B3, B4, B5, B6, B7, B8, B9, List.filter_cons,
                      List.filterMap_cons, survRev, survRange, survDate, survQty,
                      survPrice, survReg, survCat, survBase] <;> (try (cases hdzc : cfg.drop_zero_quantity <;> simp_all))
                case neg =>
                  have h6' : (!cfg.drop_zero_quantity ||
                      maskQty (lateT6 ctx (normStep r))) = true := by
                    revert h6
                    cases cfg.drop_zero_quantity <;>
                      cases maskQty (lateT6 ctx (normStep r)) <;> simp
                  have h6n : ¬(cfg.drop_zero_quantity = true ∧
                      maskQty (lateT6 ctx (normStep r)) = false) := by
                    revert h6
                    cases cfg.drop_zero_quantity <;>
                      cases maskQty (lateT6 ctx (normStep r)) <;> simp
                  by_cases h7 : maskDate (lateT7 ctx (normStep r)) = true
                  case neg =>
                    have hf : rowFate ctx cfg seen acc r =
                        .inr (lateT7 ctx (normStep r), 7) := by
                      simp [rowFate, h0, h1m, h2m, h3, h4, h5, h6n, h7]
                    refine ⟨?_, ?_, ?_, ?_, ?_, ?_, ?_, ?_, ?_, ?_, ?_⟩ <;>
                      simp [chunkFates, h0, h1m, h2m, h3, h4, h5, h6', h7, hf, hnf, dedupGo,
                        rejAt, stageReason, A, B0, B1, B2, B3, B4, B5, B6, B7, B8, B9,
                        List.filter_cons, List.filterMap_cons, survRev, survRange,
                        survDate, survQty, survPrice, survReg, survCat, survBase] <;> (try (cases hdzc : cfg.drop_zero_quantity <;> simp_all))
                  case pos =>
                    by_cases h8 : maskRange ctx (lateT7 ctx (normStep r)) = true
                    case neg =>
                      have hf : rowFate ctx cfg seen acc r =
                          .inr (lateT7 ctx (normStep r), 8) := by
                        simp [rowFate, h0, h1m, h2m, h3, h4, h5, h6n, h7, h8]
                      refine ⟨?_, ?_, ?_, ?_, ?_, ?_, ?_, ?_, ?_, ?_, ?_⟩ <;>
                        simp [chunkFates, h0, h1m, h2m, h3, h4, h5, h6', h7, h8, hf, hnf,
                          dedupGo, rejAt, stageReason, A, B0, B1, B2, B3, B4, B5, B6, B7, B8, B9,
                          List.filter_cons, List.filterMap_cons, survRev, survRange,
                          survDate, survQty, survPrice, survReg, survCat, survBase] <;> (try (cases hdzc : cfg.drop_zero_quantity <;> simp_all))
                    case pos =>
                      by_cases h9 : maskRev (lateT9 ctx (normStep r)) = true
                      case neg =>
                        have hf : rowFate ctx cfg seen acc r =
                            .inr (lateT9 ctx (normStep r), 9) := by
                          simp [rowFate, h0, h1m, h2m, h3, h4, h5, h6n, h7, h8, h9]
                        refine ⟨?_, ?_, ?_, ?_, ?_, ?_, ?_, ?_, ?_, ?_, ?_⟩ <;>
                          simp [chunkFates, h0, h1m, h2m, h3, h4, h5, h6', h7, h8, h9, hf,
                            hnf, dedupGo, rejAt, stageReason, A, B0, B1, B2, B3, B4, B5, B6, B7, B8,
                            B9, List.filter_cons, List.filterMap_cons, survRev, survRange,
                            survDate, survQty, survPrice, survReg, survCat, survBase] <;> (try (cases hdzc : cfg.drop_zero_quantity <;> simp_all))
                      case pos =>
                        have hf : rowFate ctx cfg seen acc r =
                            .inl (lateT9 ctx (normStep r)) := by
                          simp [rowFate, h0, h1m, h2m, h3, h4, h5, h6n, h7, h8, h9]
                        refine ⟨?_, ?_, ?_, ?_, ?_, ?_, ?_, ?_, ?_, ?_, ?_⟩ <;>
                          simp [chunkFates, h0, h1m, h2m, h3, h4, h5, h6', h7, h8, h9, hf,
                            hnf, dedupGo, rejAt, stageReason, A, B0, B1, B2, B3, B4, B5, B6, B7, B8,
                            B9, List.filter_cons, List.filterMap_cons, survRev, survRange,
                            survDate, survQty, survPrice, survReg, survCat, survBase] <;> (try (cases hdzc : cfg.drop_zero_quantity <;> simp_all))

theorem filterMap_cons_toList {α β : Type} (g : α → Option β) (a : α) (l : List α) :
    List.filterMap g (a :: l) = (g a).toList ++ List.filterMap g l := by
  cases h : g a <;> simp [List.filterMap_cons, h]

theorem length_flatMap_append {α β : Type} (l : List α) (A B : α → List β) :
    (l.flatMap (fun t => A t ++ B t)).length = (l.flatMap A).length + (l.flatMap B).length := by
  induction l with
  | nil => rfl
  | cons a l ih => simp [List.flatMap_cons, ih]; omega

theorem length_flatMap_single_ge {β : Type} (x : ℕ → β) :
    ∀ (n s : ℕ), n ≤ s → ((List.range n).flatMap (fun t => if s = t then [x t] else [])).length = 0 := by
  intro n
  induction n with
  | zero => intro s _; rfl
  | succ n ih =>
    intro s hs
    rw [List.range_succ]
    simp only [List.flatMap_append, List.length_append, List.flatMap_cons, List.flatMap_nil]
    rw [ih s (by omega), if_neg (by omega)]
    rfl

theorem length_flatMap_single {β : Type} (x : ℕ → β) :
    ∀ (n s : ℕ), s < n → ((List.range n).flatMap (fun t => if s = t then [x t] else [])).length = 1 := by
  intro n
  induction n with
  | zero => intro s hs; omega
  | succ n ih =>
    intro s hs
    rw [List.range_succ]
    simp only [List.flatMap_append, List.length_append, List.flatMap_cons, List.flatMap_nil]
    by_cases h : s = n
    · rw [length_flatMap_single_ge x n s (by omega), if_pos h]
      rfl
    · rw [ih s (by omega), if_neg h]
      rfl

theorem rowFate_stage_lt (ctx : Ctx) (cfg : CleanConfig) (seen acc : List String) (r : Row) :
    ∀ p s, rowFate ctx cfg seen acc r = .inr (p, s) → s < 10 := by
  intro p s h
  simp only [rowFate] at h
  repeat' split at h
  all_goals first
    | exact Sum.noConfusion h
    | (injection h with h1; injection h1 with h2 h3; omega)

theorem chunkFates_count (ctx : Ctx) (cfg : CleanConfig) (seen : List String) :
    ∀ (frame : List Row) (acc : List String),
      ((chunkFates ctx cfg seen acc frame).filterMap Sum.getLeft?).length
        + ((List.range 10).flatMap
            (fun s => (chunkFates ctx cfg seen acc frame).filterMap (rejAt s))).length
        = frame.length := by
  intro frame
  induction frame with
  | nil => intro acc; rfl
  | cons r rs ih =>
    intro acc
    simp only [chunkFates]
    have hsplit : ∀ f : Row ⊕ (Row × ℕ),
        (List.filterMap Sum.getLeft?
            (f :: chunkFates ctx cfg seen
              (if maskIds (normStep r) then cellS (normStep r).order_id :: acc else acc) rs)).length
          + ((List.range 10).flatMap (fun s => List.filterMap (rejAt s)
              (f :: chunkFates ctx cfg seen
                (if maskIds (normStep r) then cellS (normStep r).order_id :: acc else acc) rs))).length
          = ((Sum.getLeft? f).toList.length
              + ((List.range 10).flatMap (fun s => (rejAt s f).toList)).length)
            + ((List.filterMap Sum.getLeft? (chunkFates ctx cfg seen
                (if maskIds (normStep r) then cellS (normStep r).order_id :: acc else acc) rs)).length
              + ((List.range 10).flatMap (fun s => List.filterMap (rejAt s)
                  (chunkFates ctx cfg seen
                    (if maskIds (normStep r) then cellS (normStep r).order_id :: acc else acc) rs))).length) := by
      intro f
      rw [filterMap_cons_toList]
      conv_lhs =>
        rw [show (fun s => List.filterMap (rejAt s)
              (f :: chunkFates ctx cfg seen
                (if maskIds (normStep r) then cellS (normStep r).order_id :: acc else acc) rs))
            = (fun s => (rejAt s f).toList ++ List.filterMap (rejAt s)
                (chunkFates ctx cfg seen
                  (if maskIds (normStep r) then cellS (normStep r).order_id :: acc else acc) rs))
          from funext (fun s => filterMap_cons_toList (rejAt s) _ _)]
      rw [length_flatMap_append]
      simp [List.length_append]
      omega
    rw [hsplit]
    rw [ih]
    have hone : (Sum.getLeft? (rowFate ctx cfg seen acc r)).toList.length
        + ((List.range 10).flatMap
            (fun s => (rejAt s (rowFate ctx cfg seen acc r)).toList)).length = 1 := by
      cases hf : rowFate ctx cfg seen acc r with
      | inl c =>
        have : ∀ l : List ℕ, (l.flatMap (fun _ => ([] : List (Row × String)))) = [] := by
          intro l; induction l <;> simp_all
        simp [rejAt, Sum.getLeft?, this]
      | inr p =>
        obtain ⟨q, s⟩ := p
        have hs := rowFate_stage_lt ctx cfg seen acc r q s hf
        have heq : (fun t => (rejAt t (Sum.inr (q, s) : Row ⊕ (Row × ℕ))).toList)
            = (fun t => if s = t then [((q, stageReason t) : Row × String)] else []) := by
          funext t
          simp only [rejAt]
          by_cases h : s = t <;> simp [h]
        have hl := length_flatMap_single (fun t => ((q, stageReason t) : Row × String)) 10 s hs
        rw [← heq] at hl
        simp only [Sum.getLeft?_inr, Option.toList_none, List.length_nil]
        omega
    simp only [List.length_cons]
    omega

theorem range_ten : List.range 10 = [0, 1, 2, 3, 4, 5, 6, 7, 8, 9] := rfl

/-- Claim C3: single first-stage rejection reason and partition.  With rejected-row
tracking on, `_clean_chunk` gives every input row exactly one fate
(`chunkFates` assigns one fate per row, and `rowFate` tries the stages in the
fixed source order, so the recorded reason is the earliest failed stage): the
clean frame consists of the rows with a clean fate, the rejected collection
is exactly the rejected fates grouped by stage with the stage's single
reason, and the clean and rejected counts add up to the chunk size, so no
row is dropped without a reason. -/
theorem cleanChunk_partition (ctx : Ctx) (cfg : CleanConfig) (frame : List Row)
    (seen : List String) (hsave : cfg.save_rejected_rows = true) :
    ((chunkFates ctx cfg seen [] frame).length = frame.length)
    ∧ ((cleanChunk ctx cfg frame seen).cleaned =
        (chunkFates ctx cfg seen [] frame).filterMap Sum.getLeft?)
    ∧ ((cleanChunk ctx cfg frame seen).rejected =
        (List.range 10).flatMap
          (fun s => (chunkFates ctx cfg seen [] frame).filterMap (rejAt s)))
    ∧ ((cleanChunk ctx cfg frame seen).cleaned.length
        + (cleanChunk ctx cfg frame seen).rejected.length = frame.length) := by
  obtain ⟨A, B0, B1, B2, B3, B4, B5, B6, B7, B8, B9⟩ := chunkFates_spec ctx cfg seen frame []
  have hparts := cleanChunk_parts ctx cfg frame seen
  have hclean : (cleanChunk ctx cfg frame seen).cleaned =
      (chunkFates ctx cfg seen [] frame).filterMap Sum.getLeft? := by
    rw [hparts]
    exact A.symm
  have hrej : (cleanChunk ctx cfg frame seen).rejected =
      (List.range 10).flatMap
        (fun s => (chunkFates ctx cfg seen [] frame).filterMap (rejAt s)) := by
    rw [hparts]
    simp only [hsave, eq_self_iff_true, if_true]
    rw [range_ten]
    simp only [List.flatMap_cons, List.flatMap_nil, List.append_nil]
    rw [B0, B1, B2, B3, B4, B5, B6, B7, B8, B9]
    simp only [List.append_assoc]
    rfl
  refine ⟨chunkFates_length ctx cfg seen frame [], hclean, hrej, ?_⟩
  rw [hclean, hrej]
  exact chunkFates_count ctx cfg seen frame []

theorem anomStep_setRev (c : Cell) (r : Row) :
    anomStep (setRev c r) = setRev c (anomStep r) := by
  by_cases h : (0.80 : ℚ) < cellQ r.discount_percent
  · have h' : cellQ (setRev c r).discount_percent = cellQ r.discount_percent := rfl
    simp only [anomStep, h', if_pos h]
    rfl
  · have h' : cellQ (setRev c r).discount_percent = cellQ r.discount_percent := rfl
    simp only [anomStep, h', if_neg h]

theorem lateT5_setRev (ctx : Ctx) (c : Cell) (r : Row) :
    lateT5 ctx (setRev c r) = setRev c (lateT5 ctx r) := rfl

theorem lateT6_setRev (ctx : Ctx) (c : Cell) (r : Row) :
    lateT6 ctx (setRev c r) = setRev c (lateT6 ctx r) := by
  show anomStep (lateT5 ctx (setRev c r)) = setRev c (anomStep (lateT5 ctx r))
  rw [lateT5_setRev, anomStep_setRev]

theorem lateT7_setRev (ctx : Ctx) (c : Cell) (r : Row) :
    lateT7 ctx (setRev c r) = setRev c (lateT7 ctx r) := by
  show dateStep (lateT6 ctx (setRev c r)) = setRev c (dateStep (lateT6 ctx r))
  rw [lateT6_setRev]
  rfl

theorem lateT9_setRev (ctx : Ctx) (c : Cell) (r : Row) :
    lateT9 ctx (setRev c r) = lateT9 ctx r := by
  show revStep (emailStep (unixStep (lateT7 ctx (setRev c r))))
      = revStep (emailStep (unixStep (lateT7 ctx r)))
  rw [lateT7_setRev]
  rfl

theorem survRev_setRev (ctx : Ctx) (cfg : CleanConfig) (seen : List String) (c : Cell)
    (r : Row) : survRev ctx cfg seen (setRev c r) = survRev ctx cfg seen r := by
  simp only [survRev, survRange, survDate, survQty, survPrice, survReg, survCat, survBase,
    lateT9_setRev, lateT7_setRev, lateT6_setRev, lateT5_setRev]
  rfl

theorem RevEq_eq {α : Type} {f : Row → α} (hf : ∀ c r, f (setRev c r) = f r) {a b : Row}
    (h : RevEq a b) : f a = f b := by
  rw [← hf Cell.na a, h, hf Cell.na b]

theorem RevEq_step {S : Row → Row} (hS : ∀ c r, S (setRev c r) = setRev c (S r)) {a b : Row}
    (h : RevEq a b) : RevEq (S a) (S b) := by
  unfold RevEq
  rw [← hS Cell.na a, h, hS Cell.na b]

theorem relFilter {p : Row → Bool} (hp : ∀ c r, p (setRev c r) = p r) :
    ∀ {l₁ l₂ : List Row}, List.Forall₂ RevEq l₁ l₂ →
      List.Forall₂ RevEq (l₁.filter p) (l₂.filter p) := by
  intro l₁ l₂ h
  induction h with
  | nil => exact List.Forall₂.nil
  | cons hab htl ih =>
    next a b l₁' l₂' =>
      have hpab : p a = p b := RevEq_eq hp hab
      by_cases hpa : p a = true
      · rw [List.filter_cons, List.filter_cons, hpa, ← hpab, hpa]
        exact List.Forall₂.cons hab ih
      · have hpa' : p a = false := by revert hpa; cases p a <;> simp
        rw [List.filter_cons, List.filter_cons, hpa', ← hpab, hpa']
        exact ih

theorem relMap {S : Row → Row} (hS : ∀ c r, S (setRev c r) = setRev c (S r)) :
    ∀ {l₁ l₂ : List Row}, List.Forall₂ RevEq l₁ l₂ →
      List.Forall₂ RevEq (l₁.map S) (l₂.map S) := by
  intro l₁ l₂ h
  induction h with
  | nil => exact List.Forall₂.nil
  | cons hab htl ih => exact List.Forall₂.cons (RevEq_step hS hab) ih

theorem mapEqOfRel {α : Type} {f : Row → α} (hf : ∀ c r, f (setRev c r) = f r) :
    ∀ {l₁ l₂ : List Row}, List.Forall₂ RevEq l₁ l₂ → l₁.map f = l₂.map f := by
  intro l₁ l₂ h
  induction h with
  | nil => rfl
  | cons hab htl ih => simp only [List.map_cons, RevEq_eq hf hab, ih]

theorem relDedup : ∀ {l₁ l₂ : List Row}, List.Forall₂ RevEq l₁ l₂ → ∀ acc : List String,
    List.Forall₂ RevEq (dedupGo acc l₁).1 (dedupGo acc l₂).1 ∧
    List.Forall₂ RevEq (dedupGo acc l₁).2 (dedupGo acc l₂).2 := by
  intro l₁ l₂ h
  induction h with
  | nil => exact fun acc => ⟨List.Forall₂.nil, List.Forall₂.nil⟩
  | cons hab htl ih =>
    next a b l₁' l₂' =>
      intro acc
      have hkey : cellS a.order_id = cellS b.order_id :=
        RevEq_eq (f := fun r => cellS r.order_id) (fun c r => rfl) hab
      obtain ⟨ihk, ihd⟩ := ih (cellS a.order_id :: acc)
      simp only [dedupGo, ← hkey]
      by_cases hc : acc.contains (cellS a.order_id) = true
      · simp only [hc, if_true]
        exact ⟨ihk, List.Forall₂.cons hab ihd⟩
      · have hc' : acc.contains (cellS a.order_id) = false := by
          revert hc; cases acc.contains (cellS a.order_id) <;> simp
        simp only [hc', Bool.false_eq_true, if_false]
        exact ⟨List.Forall₂.cons hab ihk, ihd⟩

theorem relBase (g : Row → Cell) :
    ∀ frame : List Row, List.Forall₂ RevEq (frame.map (fun r => setRev (g r) r)) frame := by
  intro frame
  induction frame with
  | nil => exact List.Forall₂.nil
  | cons r rs ih =>
    refine List.Forall₂.cons ?_ ih
    show setRev Cell.na (setRev (g r) r) = setRev Cell.na r
    rfl

theorem cleaned_setRev (ctx : Ctx) (cfg : CleanConfig) (frame : List Row) (seen : List String)
    (g : Row → Cell) :
    (cleanChunk ctx cfg (frame.map (fun r => setRev (g r) r)) seen).cleaned =
      (cleanChunk ctx cfg frame seen).cleaned := by
  rw [cleanChunk_parts, cleanChunk_parts]
  have h0 := relBase g frame
  have h1 : List.Forall₂ RevEq (normFiltered (frame.map (fun r => setRev (g r) r)))
      (normFiltered frame) := by
    unfold normFiltered
    exact relMap (S := normStep) (fun c r => rfl)
      (relFilter (p := fun r => maskIds (normStep r)) (fun c r => rfl) h0)
  have h2 := (relDedup h1 []).1
  have h3 := relFilter (survRev_setRev ctx cfg seen) h2
  exact mapEqOfRel (lateT9_setRev ctx) h3

/-- Claim C5: revenue recomputation.  Every clean row's revenue equals
`round(unit_price * quantity * (1 - discount_percent), 2)` computed from its
own cleaned fields and lies in `[0, 1000000)`; the clean output is unchanged
when every input row's `revenue` cell is overwritten arbitrarily, so the
source file's revenue is never used; and (with rejected-row tracking on)
every row reaching the revenue stage whose recomputed revenue falls outside
`[0, 1000000)` is rejected with reason `invalid_calculated_revenue`. -/
theorem revenue_recomputed (ctx : Ctx) (cfg : CleanConfig) (frame : List Row)
    (seen : List String) :
    (∀ row ∈ (cleanChunk ctx cfg frame seen).cleaned,
        row.revenue = Cell.num (round2 (cellQ row.unit_price * (cellZ row.quantity : ℚ) *
          (1 - cellQ row.discount_percent)))
        ∧ (0 : ℚ) ≤ cellQ row.revenue ∧ cellQ row.revenue < 1000000)
    ∧ (∀ g : Row → Cell,
        (cleanChunk ctx cfg (frame.map (fun r => setRev (g r) r)) seen).cleaned =
          (cleanChunk ctx cfg frame seen).cleaned)
    ∧ (cfg.save_rejected_rows = true →
        ∀ r ∈ dedupKeep frame, survRange ctx cfg seen r = true →
          ¬((0 : ℚ) ≤ round2 (cellQ (lateT9 ctx r).unit_price *
                ((cellZ (lateT9 ctx r).quantity : ℚ)) *
                (1 - cellQ (lateT9 ctx r).discount_percent)) ∧
              round2 (cellQ (lateT9 ctx r).unit_price *
                ((cellZ (lateT9 ctx r).quantity : ℚ)) *
                (1 - cellQ (lateT9 ctx r).discount_percent)) < 1000000) →
          (lateT9 ctx r, "invalid_calculated_revenue") ∈
            (cleanChunk ctx cfg frame seen).rejected) := by
  refine ⟨?_, ?_, ?_⟩
  · intro row hrow
    rw [cleanChunk_parts] at hrow
    simp only [List.mem_map, List.mem_filter] at hrow
    obtain ⟨r, ⟨hmem, hsurv⟩, hrow⟩ := hrow
    subst hrow
    have hmask : maskRev (lateT9 ctx r) = true := by
      simp only [survRev, Bool.and_eq_true] at hsurv
      exact hsurv.1
    simp only [maskRev, Bool.and_eq_true, decide_eq_true_eq] at hmask
    exact ⟨rfl, hmask.1, hmask.2⟩
  · intro g
    exact cleaned_setRev ctx cfg frame seen g
  · intro hsave r hr hsurv hout
    have hx : cellQ (lateT9 ctx r).revenue
        = round2 (cellQ (lateT9 ctx r).unit_price * ((cellZ (lateT9 ctx r).quantity : ℚ)) *
            (1 - cellQ (lateT9 ctx r).discount_percent)) := rfl
    have hmask : maskRev (lateT9 ctx r) = false := by
      by_cases h1 : (0 : ℚ) ≤ cellQ (lateT9 ctx r).revenue
      · have h2 : ¬(cellQ (lateT9 ctx r).revenue < 1000000) := by
          intro h2
          exact hout ⟨hx ▸ h1, hx ▸ h2⟩
        simp [maskRev, h2]
      · simp [maskRev, h1]
    rw [cleanChunk_parts]
    dsimp only
    simp only [hsave, eq_self_iff_true, if_true, List.mem_append]
    refine Or.inr ?_
    simp only [List.mem_map, List.mem_filter]
    exact ⟨r, ⟨hr, by simp [hmask, hsurv]⟩, rfl⟩

/-- Claim C9 (amended): when rejected-row tracking is on, the rejected rows carry
the values as of the stage that rejected them — identifiers are already
normalised from stage 1 on, the category (resp. region, numeric, date,
Unix-date, email/revenue) columns are already transformed in every later
stage's rejects — together with exactly one rejection reason from the fixed
per-stage list. -/
theorem rejected_stage_values (ctx : Ctx) (cfg : CleanConfig) (frame : List Row)
    (seen : List String) (hsave : cfg.save_rejected_rows = true) :
    ((cleanChunk ctx cfg frame seen).rejected =
      List.map (fun r => (normStep r, "missing_order_id_or_product"))
        (frame.filter (fun r => !(maskIds (normStep r)))) ++
      List.map (fun r => (r, "duplicate_order_id")) (dedupRej frame) ++
      List.map (fun r => (r, "duplicate_order_id"))
        ((dedupKeep frame).filter (fun r => seen.contains (cellS r.order_id))) ++
      List.map (fun r => (r, "unknown_category"))
        ((dedupKeep frame).filter (fun r => !(maskCat ctx r) && survBase seen r)) ++
      List.map (fun r => (catStep ctx r, "unknown_region"))
        ((dedupKeep frame).filter
          (fun r => !(maskReg ctx (catStep ctx r)) && survCat ctx seen r)) ++
      List.map (fun r => (lateT5 ctx r, "invalid_unit_price"))
        ((dedupKeep frame).filter
          (fun r => !(maskPrice (lateT5 ctx r)) && survReg ctx seen r)) ++
      (if cfg.drop_zero_quantity then
        List.map (fun r => (lateT6 ctx r, "zero_quantity"))
          ((dedupKeep frame).filter
            (fun r => !(maskQty (lateT6 ctx r)) && survPrice ctx seen r))
       else []) ++
      List.map (fun r => (lateT7 ctx r, "invalid_sale_date"))
        ((dedupKeep frame).filter
          (fun r => !(maskDate (lateT7 ctx r)) && survQty ctx cfg seen r)) ++
      List.map (fun r => (lateT7 ctx r, "sale_date_out_of_range"))
        ((dedupKeep frame).filter
          (fun r => !(maskRange ctx (lateT7 ctx r)) && survDate ctx cfg seen r)) ++
      List.map (fun r => (lateT9 ctx r, "invalid_calculated_revenue"))
        ((dedupKeep frame).filter
          (fun r => !(maskRev (lateT9 ctx r)) && survRange ctx cfg seen r)))
    ∧ ∀ p ∈ (cleanChunk ctx cfg frame seen).rejected,
        p.2 ∈ ["missing_order_id_or_product", "duplicate_order_id", "unknown_category",
          "unknown_region", "invalid_unit_price", "zero_quantity", "invalid_sale_date",
          "sale_date_out_of_range", "invalid_calculated_revenue"] := by
  have heq := cleanChunk_parts ctx cfg frame seen
  constructor
  · rw [heq]
    dsimp only
    simp only [hsave, eq_self_iff_true, if_true]
  · intro p hp
    rw [heq] at hp
    dsimp only at hp
    simp only [hsave, eq_self_iff_true, if_true] at hp
    simp only [List.mem_append, or_assoc] at hp
    rcases hp with h | h | h | h | h | h | h | h | h | h
    all_goals
      first
      | (obtain ⟨r, hr, rfl⟩ := List.mem_map.mp h; simp)
      | (revert h
         split
         · intro h
           obtain ⟨r, hr, rfl⟩ := List.mem_map.mp h
           simp
         · intro h
           exact absurd h (List.not_mem_nil p))

/-- Claim C8 (amended): the clean frame's columns are the ten documented base
columns, with `anomaly_flag` appended exactly when some row of the chunk
reaches the anomaly stage with a heavy discount; in particular the schema is
one of two lists and is not fixed across chunks. -/
theorem cleanChunk_columns_spec (ctx : Ctx) (cfg : CleanConfig) (frame : List Row)
    (seen : List String) :
    ((cleanChunk ctx cfg frame seen).columns = baseColumns ∨
      (cleanChunk ctx cfg frame seen).columns = baseColumns ++ ["anomaly_flag"])
    ∧ ((cleanChunk ctx cfg frame seen).columns =
        baseColumns ++
          (if (dedupKeep frame).any (heavySurv ctx seen) then ["anomaly_flag"] else [])) := by
  have h : (cleanChunk ctx cfg frame seen).columns =
      baseColumns ++
        (if (dedupKeep frame).any (heavySurv ctx seen) then ["anomaly_flag"] else []) := by
    rw [cleanChunk_parts]
  refine ⟨?_, h⟩
  rw [h]
  cases hA : (dedupKeep frame).any (heavySurv ctx seen)
  · left
    simp
  · right
    simp

/-- Claim C10: email lowercasing.  `_clean_customer_email` returns either missing
or exactly the trimmed, lowercased input, keeping it iff the lowercased form
matches the email pattern; consequently every clean row's email is missing
or a trimmed-lowercased string that matches the pattern (a valid mixed-case
email is always emitted in lowercase). -/
theorem email_lowercased :
    (∀ c : Cell, cleanEmailCell c = Cell.na ∨
        cleanEmailCell c = Cell.str (pyLower (normCell c)))
    ∧ (∀ c : Cell, cleanEmailCell c = Cell.na ↔ emailMatch (pyLower (normCell c)) = false)
    ∧ (∀ (ctx : Ctx) (cfg : CleanConfig) (frame : List Row) (seen : List String),
        ∀ row ∈ (cleanChunk ctx cfg frame seen).cleaned,
          row.customer_email = Cell.na ∨
          ∃ s, row.customer_email = Cell.str (pyLower (pyStrip s)) ∧
            emailMatch (pyLower (pyStrip s)) = true) := by
  have hcell : ∀ c : Cell, (cleanEmailCell c = Cell.na ∧
      emailMatch (pyLower (normCell c)) = false) ∨
      (cleanEmailCell c = Cell.str (pyLower (normCell c)) ∧
        emailMatch (pyLower (normCell c)) = true) := by
    intro c
    by_cases h : emailMatch (pyLower (normCell c)) = true
    · right
      refine ⟨?_, h⟩
      simp only [cleanEmailCell, h, if_true]
    · left
      have h' : emailMatch (pyLower (normCell c)) = false := by
        revert h; cases emailMatch (pyLower (normCell c)) <;> simp
      refine ⟨?_, h'⟩
      simp only [cleanEmailCell, h', Bool.false_eq_true, if_false]
  refine ⟨?_, ?_, ?_⟩
  · intro c
    rcases hcell c with ⟨h, _⟩ | ⟨h, _⟩
    · exact Or.inl h
    · exact Or.inr h
  · intro c
    constructor
    · intro hna
      rcases hcell c with ⟨_, h⟩ | ⟨h, _⟩
      · exact h
      · rw [h] at hna
        exact absurd hna (by simp)
    · intro hm
      rcases hcell c with ⟨h, _⟩ | ⟨_, h⟩
      · exact h
      · rw [h] at hm
        exact absurd hm (by simp)
  · intro ctx cfg frame seen row hrow
    rw [cleanChunk_parts] at hrow
    simp only [List.mem_map, List.mem_filter] at hrow
    obtain ⟨r, _, hrow⟩ := hrow
    subst hrow
    have hemail : (lateT9 ctx r).customer_email =
        cleanEmailCell ((unixStep (lateT7 ctx r)).customer_email) := rfl
    rcases hcell ((unixStep (lateT7 ctx r)).customer_email) with ⟨h, _⟩ | ⟨h, hm⟩
    · left
      rw [hemail, h]
    · right
      exact ⟨cellToString ((unixStep (lateT7 ctx r)).customer_email), by rw [hemail, h]; rfl,
        hm⟩

theorem key_anomStep (r : Row) : (anomStep r).order_id = r.order_id := by
  unfold anomStep
  split <;> rfl

set_option maxHeartbeats 800000 in
theorem key_lateT9 (ctx : Ctx) (r : Row) :
    cellS (lateT9 ctx r).order_id = cellS r.order_id := by
  have h1 : ∀ x : Row, (revStep x).order_id = x.order_id := fun x => rfl
  have h2 : ∀ x : Row, (emailStep x).order_id = x.order_id := fun x => rfl
  have h3 : ∀ x : Row, (unixStep x).order_id = x.order_id := fun x => rfl
  have h4 : ∀ x : Row, (dateStep x).order_id = x.order_id := fun x => rfl
  show cellS (revStep (emailStep (unixStep (dateStep (anomStep (lateT5 ctx r)))))).order_id
      = cellS r.order_id
  rw [h1, h2, h3, h4, key_anomStep]
  rfl

theorem dedup_keys : ∀ (l : List Row) (acc : List String),
    (((dedupGo acc l).1.map (fun r => cellS r.order_id)).Nodup ∧
      ∀ i ∈ (dedupGo acc l).1.map (fun r => cellS r.order_id), i ∉ acc) := by
  intro l
  induction l with
  | nil => exact fun acc => ⟨List.nodup_nil, by simp [dedupGo]⟩
  | cons r rs ih =>
    intro acc
    by_cases hc : acc.contains (cellS r.order_id) = true
    · obtain ⟨ihn, ihm⟩ := ih (cellS r.order_id :: acc)
      simp only [dedupGo, hc, if_true]
      exact ⟨ihn, fun i hi => fun hmem => ihm i hi (List.mem_cons_of_mem _ hmem)⟩
    · have hc' : acc.contains (cellS r.order_id) = false := by
        revert hc; cases acc.contains (cellS r.order_id) <;> simp
      have hcm : cellS r.order_id ∉ acc := by simpa using hc'
      obtain ⟨ihn, ihm⟩ := ih (cellS r.order_id :: acc)
      simp only [dedupGo, hc', Bool.false_eq_true, if_false]
      constructor
      · simp only [List.map_cons]
        refine List.Nodup.cons ?_ ihn
        intro hmem
        exact ihm _ hmem (List.mem_cons_self _ _)
      · intro i hi
        simp only [List.map_cons] at hi
        rcases List.mem_cons.mp hi with h | h
        · subst h; exact hcm
        · exact fun hmem => ihm i h (List.mem_cons_of_mem _ hmem)

theorem cleanChunk_ids (ctx : Ctx) (cfg : CleanConfig) (frame : List Row)
    (seen : List String) :
    (((cleanChunk ctx cfg frame seen).cleaned.map (fun r => cellS r.order_id)).Nodup ∧
      ∀ i ∈ (cleanChunk ctx cfg frame seen).cleaned.map (fun r => cellS r.order_id),
        i ∉ seen) := by
  rw [cleanChunk_parts]
  dsimp only
  have hmm : (List.map (lateT9 ctx) (List.filter (survRev ctx cfg seen) (dedupKeep frame))).map
      (fun r => cellS r.order_id) =
      (List.filter (survRev ctx cfg seen) (dedupKeep frame)).map (fun r => cellS r.order_id) := by
    rw [List.map_map]
    exact List.map_congr_left (fun r _ => key_lateT9 ctx r)
  rw [hmm]
  constructor
  · have hsub : List.Sublist
        ((List.filter (survRev ctx cfg seen) (dedupKeep frame)).map (fun r => cellS r.order_id))
        ((dedupKeep frame).map (fun r => cellS r.order_id)) :=
      List.Sublist.map _ (List.filter_sublist _)
    exact ((dedup_keys (normFiltered frame) []).1).sublist hsub
  · intro i hi
    obtain ⟨r, hr, rfl⟩ := List.mem_map.mp hi
    have hsurv := (List.mem_filter.mp hr).2
    have hbase : survBase seen r = true := by
      simp only [survRev, survRange, survDate, survQty, survPrice, survReg, survCat,
        Bool.and_eq_true] at hsurv
      exact hsurv.2.2.2.2.2.2.2
    simpa [survBase] using hbase

theorem cleanChunk_seen_eq (ctx : Ctx) (cfg : CleanConfig) (frame : List Row)
    (seen : List String) :
    (cleanChunk ctx cfg frame seen).seen =
      seen ++ (cleanChunk ctx cfg frame seen).cleaned.map (fun r => cellS r.order_id) := rfl

theorem runPipeline_seen (ctx : Ctx) (cfg : CleanConfig) :
    ∀ (chunks : List (List Row)) (seen₀ : List String),
      (runPipeline ctx cfg chunks seen₀).2.2 =
        seen₀ ++ (runPipeline ctx cfg chunks seen₀).1.map (fun r => cellS r.order_id) := by
  intro chunks
  induction chunks with
  | nil => intro seen₀; simp [runPipeline]
  | cons c cs ih =>
    intro seen₀
    simp only [runPipeline]
    rw [ih ((cleanChunk ctx cfg c seen₀).seen), cleanChunk_seen_eq]
    simp [List.map_append, List.append_assoc]

theorem runPipeline_nodup (ctx : Ctx) (cfg : CleanConfig) :
    ∀ (chunks : List (List Row)) (seen₀ : List String),
      (((runPipeline ctx cfg chunks seen₀).1.map (fun r => cellS r.order_id)).Nodup ∧
        ∀ i ∈ (runPipeline ctx cfg chunks seen₀).1.map (fun r => cellS r.order_id),
          i ∉ seen₀) := by
  intro chunks
  induction chunks with
  | nil => exact fun seen₀ => ⟨List.nodup_nil, by simp [runPipeline]⟩
  | cons c cs ih =>
    intro seen₀
    obtain ⟨ihn, ihm⟩ := ih ((cleanChunk ctx cfg c seen₀).seen)
    obtain ⟨hcn, hcm⟩ := cleanChunk_ids ctx cfg c seen₀
    simp only [runPipeline, List.map_append]
    have hdis : ((cleanChunk ctx cfg c seen₀).cleaned.map (fun r => cellS r.order_id)).Disjoint
        ((runPipeline ctx cfg cs ((cleanChunk ctx cfg c seen₀).seen)).1.map
          (fun r => cellS r.order_id)) := by
      intro a ha hb
      have hni := ihm a hb
      rw [cleanChunk_seen_eq] at hni
      exact hni (List.mem_append.mpr (Or.inr ha))
    constructor
    · exact List.Nodup.append hcn ihn hdis
    · intro i hi
      rcases List.mem_append.mp hi with h | h
      · exact hcm i h
      · intro hmem
        have hni := ihm i h
        rw [cleanChunk_seen_eq] at hni
        exact hni (List.mem_append.mpr (Or.inl hmem))

/-- Claim C4: seen-order-id invariant and global uniqueness.  A chunk's update of
the seen set only appends the order ids of the rows that survived every
stage (so the set never shrinks and is mutated nowhere else); across a whole
run the final seen set is the initial one plus all clean ids in order, and
the clean records of a run have pairwise distinct order ids. -/
theorem seen_ids_monotone_unique (ctx : Ctx) (cfg : CleanConfig) :
    (∀ (frame : List Row) (seen : List String),
        (cleanChunk ctx cfg frame seen).seen =
          seen ++ (cleanChunk ctx cfg frame seen).cleaned.map (fun r => cellS r.order_id))
    ∧ (∀ (chunks : List (List Row)) (seen₀ : List String),
        (runPipeline ctx cfg chunks seen₀).2.2 =
          seen₀ ++ (runPipeline ctx cfg chunks seen₀).1.map (fun r => cellS r.order_id))
    ∧ (∀ chunks : List (List Row),
        ((runPipeline ctx cfg chunks []).1.map (fun r => cellS r.order_id)).Nodup) := by
  refine ⟨fun frame seen => cleanChunk_seen_eq ctx cfg frame seen,
    runPipeline_seen ctx cfg, fun chunks => (runPipeline_nodup ctx cfg chunks []).1⟩

/-- Witness for C3 at a concrete one-row chunk. -/
theorem cleanChunk_partition_witness :
    testCfg.save_rejected_rows = true ∧
    (cleanChunk testCtx testCfg [row1] []).cleaned.length +
      (cleanChunk testCtx testCfg [row1] []).rejected.length = 1 :=
  ⟨rfl, (cleanChunk_partition testCtx testCfg [row1] [] rfl).2.2.2⟩

/-- Witness for C5: the clean record of `row1`, and the overflowing `rowZ`
rejected with `invalid_calculated_revenue`. -/
theorem revenue_recomputed_witness :
    (row1c ∈ (cleanChunk testCtx testCfg [row1] []).cleaned ∧
      (row1c.revenue = Cell.num (round2 (cellQ row1c.unit_price * (cellZ row1c.quantity : ℚ) *
          (1 - cellQ row1c.discount_percent)))
        ∧ (0 : ℚ) ≤ cellQ row1c.revenue ∧ cellQ row1c.revenue < 1000000))
    ∧ (lateT9 testCtx (normStep rowZ), "invalid_calculated_revenue") ∈
        (cleanChunk testCtx testCfg [rowZ] []).rejected :=
  ⟨⟨by decide, (revenue_recomputed testCtx testCfg [row1] []).1 row1c (by decide)⟩,
    (revenue_recomputed testCtx testCfg [rowZ] []).2.2 rfl (normStep rowZ) (by decide)
      (by decide) (by decide)⟩

/-- Counterexample to C9 as stated: the row rejected for `unknown_region`
carries a canonicalised category, not the raw source value. -/
theorem rejected_rows_counterexample :
    (cleanChunk testCtx testCfg [row4] []).rejected.map Prod.snd = ["unknown_region"] ∧
    ∀ p ∈ (cleanChunk testCtx testCfg [row4] []).rejected,
      p.1.category ≠ row4.category := by decide

/-- Witness for the amended C9. -/
theorem rejected_stage_values_witness :
    testCfg.save_rejected_rows = true ∧
    ∀ p ∈ (cleanChunk testCtx testCfg [row4] []).rejected,
      p.2 ∈ ["missing_order_id_or_product", "duplicate_order_id", "unknown_category",
        "unknown_region", "invalid_unit_price", "zero_quantity", "invalid_sale_date",
        "sale_date_out_of_range", "invalid_calculated_revenue"] :=
  ⟨rfl, (rejected_stage_values testCtx testCfg [row4] [] rfl).2⟩

/-- Counterexample to C8 as stated: the first chunk of a run has ten columns
(no `anomaly_flag`), the next chunk of the same run has eleven. -/
theorem columns_counterexample :
    (cleanChunk testCtx testCfg [row1] []).columns = baseColumns ∧
    (cleanChunk testCtx testCfg [row3]
        ((cleanChunk testCtx testCfg [row1] []).seen)).columns =
      baseColumns ++ ["anomaly_flag"] ∧
    baseColumns.length = 10 := by decide

/-- Witness for C10 on the clean record of `row1` (a mixed-case input). -/
theorem email_lowercased_witness :
    row1c ∈ (cleanChunk testCtx testCfg [row1] []).cleaned ∧
    (row1c.customer_email = Cell.na ∨
      ∃ s, row1c.customer_email = Cell.str (pyLower (pyStrip s)) ∧
        emailMatch (pyLower (pyStrip s)) = true) :=
  ⟨by decide, email_lowercased.2.2 testCtx testCfg [row1] [] row1c (by decide)⟩

/-- Witness for the amended C2. -/
theorem resolveCategory_correct_witness :
    ((["Electronics", "Home Office"].map pyLower).Nodup ∧ pyStrip "electronics" ≠ "") ∧
    resolveCategory ["Electronics", "Home Office"] "electronics" =
      specResolveCategory ["Electronics", "Home Office"] "electronics" :=
  ⟨⟨by decide, by decide⟩,
    resolveCategory_correct ["Electronics", "Home Office"] "electronics"
      (by decide) (by decide)⟩

/-- Counterexample to C2 as stated: the empty-after-trim input is within
distance 2 of "TV" but is never resolved, and with two canonical categories
sharing a case-folding the exact-match path returns the later one, not the
first minimal-distance candidate. -/
theorem resolveCategory_counterexample :
    (lev "".toList (pyLower "TV").toList ≤ 2 ∧ resolveCategory ["TV"] "" = none) ∧
    resolveCategory ["Home Office", "HOME office"] "home office" =
      some "HOME office" := by decide

/-- Witness for C6. -/
theorem resolveRegion_correct_witness :
    (∀ p ∈ ([("Mumbai", "Mumbai"), ("NA", "UNKNOWN")] : List (String × String)), p.1 ≠ "") ∧
    ((regionMapped [("Mumbai", "Mumbai"), ("NA", "UNKNOWN")] " mumbai ").isSome ↔
      (pyStrip " mumbai " ∈ ([("Mumbai", "Mumbai"), ("NA", "UNKNOWN")] :
          List (String × String)).map Prod.fst ∨
        pyLower (pyStrip " mumbai ") ∈
          (casefoldEntries [("Mumbai", "Mumbai"), ("NA", "UNKNOWN")]).map Prod.fst)) :=
  ⟨by decide,
    (resolveRegion_correct [("Mumbai", "Mumbai"), ("NA", "UNKNOWN")] (by decide) " mumbai ").2⟩

/-- Witness for C7. -/
theorem levB_spec_witness :
    lev "tv".toList "tb".toList ≤ 2 ∧
    levB "tv" "tb" 2 = lev "tv".toList "tb".toList :=
  ⟨by decide, (levB_spec "tv" "tb" 2).1 (by decide)⟩

/-- Counterexample to C1 as stated: the same two-row file cleaned with chunk
size 1 yields one clean record, with chunk size 2 none (the first `ORD-9`
row blocks the second within its chunk, then fails validation itself). -/
theorem dedup_chunks_counterexample :
    (runPipeline testCtx testCfg (chunksOf 1 [rowX, rowY]) []).1.length = 1 ∧
    (runPipeline testCtx testCfg (chunksOf 2 [rowX, rowY]) []).1.length = 0 := by decide

theorem splitAcc_eq : ∀ (l : List Row) (acc : List String),
    splitAcc acc l = acc ++ (splitFirst acc l).1.map (fun r => cellS r.order_id) := by
  intro l
  induction l with
  | nil => intro acc; simp [splitAcc, splitFirst]
  | cons r rs ih =>
    intro acc
    by_cases hc : acc.contains (cellS r.order_id) = true
    · have hm : cellS r.order_id ∈ acc := by simpa using hc
      simp [splitAcc, splitFirst, hc, hm, ih]
    · have hc' : acc.contains (cellS r.order_id) = false := by
        revert hc; cases acc.contains (cellS r.order_id) <;> simp
      have hm : cellS r.order_id ∉ acc := by simpa using hc'
      simp [splitAcc, splitFirst, hc', hm, ih]

theorem splitFirst_append : ∀ (l₁ l₂ : List Row) (acc : List String),
    splitFirst acc (l₁ ++ l₂)
      = ((splitFirst acc l₁).1 ++ (splitFirst (splitAcc acc l₁) l₂).1,
         (splitFirst acc l₁).2 ++ (splitFirst (splitAcc acc l₁) l₂).2) := by
  intro l₁
  induction l₁ with
  | nil => intro l₂ acc; simp [splitFirst, splitAcc]
  | cons r rs ih =>
    intro l₂ acc
    by_cases hc : acc.contains (cellS r.order_id) = true
    · have hm : cellS r.order_id ∈ acc := by simpa using hc
      simp [splitFirst, splitAcc, hc, hm, ih]
    · have hc' : acc.contains (cellS r.order_id) = false := by
        revert hc; cases acc.contains (cellS r.order_id) <;> simp
      have hm : cellS r.order_id ∉ acc := by simpa using hc'
      simp [splitFirst, splitAcc, hc', hm, ih]

theorem dedup_subset : ∀ (l : List Row) (acc : List String),
    (∀ r ∈ (dedupGo acc l).1, r ∈ l) ∧ (∀ r ∈ (dedupGo acc l).2, r ∈ l) := by
  intro l
  induction l with
  | nil => intro acc; simp [dedupGo]
  | cons r rs ih =>
    intro acc
    obtain ⟨ihk, ihd⟩ := ih (cellS r.order_id :: acc)
    by_cases hc : acc.contains (cellS r.order_id) = true
    · simp only [dedupGo, hc, if_true]
      constructor
      · intro x hx
        exact List.mem_cons_of_mem _ (ihk x hx)
      · intro x hx
        rcases List.mem_cons.mp hx with h | h
        · exact h ▸ List.mem_cons_self _ _
        · exact List.mem_cons_of_mem _ (ihd x h)
    · have hc' : acc.contains (cellS r.order_id) = false := by
        revert hc; cases acc.contains (cellS r.order_id) <;> simp
      simp only [dedupGo, hc', Bool.false_eq_true, if_false]
      constructor
      · intro x hx
        rcases List.mem_cons.mp hx with h | h
        · exact h ▸ List.mem_cons_self _ _
        · exact List.mem_cons_of_mem _ (ihk x h)
      · intro x hx
        exact List.mem_cons_of_mem _ (ihd x hx)

theorem dedup_vs_split (seen : List String) :
    ∀ (l : List Row) (acc₁ acc₂ : List String),
      (∀ x : String, x ∈ acc₂ ↔ (x ∈ seen ∨ x ∈ acc₁)) →
      ((dedupGo acc₁ l).1.filter (fun r => !(seen.contains (cellS r.order_id)))
          = (splitFirst acc₂ l).1)
      ∧ List.Perm
          ((dedupGo acc₁ l).2 ++
            (dedupGo acc₁ l).1.filter (fun r => seen.contains (cellS r.order_id)))
          (splitFirst acc₂ l).2 := by
  intro l
  induction l with
  | nil =>
    intro acc₁ acc₂ hacc
    simp [dedupGo, splitFirst]
  | cons r rs ih =>
    intro acc₁ acc₂ hacc
    by_cases h1 : acc₁.contains (cellS r.order_id) = true
    · -- within-pass duplicate in both scans
      have h1m : cellS r.order_id ∈ acc₁ := by simpa using h1
      have h2 : acc₂.contains (cellS r.order_id) = true := by
        simpa using (hacc _).mpr (Or.inr h1m)
      obtain ⟨ihk, ihp⟩ := ih (cellS r.order_id :: acc₁) acc₂ (by
        intro x
        rw [hacc x]
        constructor
        · rintro (h | h)
          · exact Or.inl h
          · exact Or.inr (List.mem_cons_of_mem _ h)
        · rintro (h | h)
          · exact Or.inl h
          · rcases List.mem_cons.mp h with h' | h'
            · subst h'; exact Or.inr h1m
            · exact Or.inr h')
      simp only [dedupGo, h1, if_true, splitFirst, h2]
      refine ⟨ihk, ?_⟩
      exact List.Perm.cons r ihp
    · have h1' : acc₁.contains (cellS r.order_id) = false := by
        revert h1; cases acc₁.contains (cellS r.order_id) <;> simp
      have h1m : cellS r.order_id ∉ acc₁ := by simpa using h1'
      by_cases hs : seen.contains (cellS r.order_id) = true
      · -- kept by dedup but rejected as a cross-chunk duplicate
        have hsm : cellS r.order_id ∈ seen := by simpa using hs
        have h2 : acc₂.contains (cellS r.order_id) = true := by
          simpa using (hacc _).mpr (Or.inl hsm)
        obtain ⟨ihk, ihp⟩ := ih (cellS r.order_id :: acc₁) acc₂ (by
          intro x
          rw [hacc x]
          constructor
          · rintro (h | h)
            · exact Or.inl h
            · exact Or.inr (List.mem_cons_of_mem _ h)
          · rintro (h | h)
            · exact Or.inl h
            · rcases List.mem_cons.mp h with h' | h'
              · subst h'; exact Or.inl hsm
              · exact Or.inr h')
        simp only [dedupGo, h1', Bool.false_eq_true, if_false, splitFirst, h2, if_true]
        constructor
        · rw [List.filter_cons, show (!(seen.contains (cellS r.order_id))) = false by
            rw [hs]; rfl]
          exact ihk
        · rw [List.filter_cons]
          rw [show (seen.contains (cellS r.order_id)) = true from hs]
          simp only [if_true]
          exact List.Perm.trans List.perm_middle (List.Perm.cons r ihp)
      · -- genuinely fresh: kept by both scans
        have hs' : seen.contains (cellS r.order_id) = false := by
          revert hs; cases seen.contains (cellS r.order_id) <;> simp
        have hsm : cellS r.order_id ∉ seen := by simpa using hs'
        have h2 : acc₂.contains (cellS r.order_id) = false := by
          have : cellS r.order_id ∉ acc₂ := by
            intro hmem
            rcases (hacc _).mp hmem with h | h
            · exact hsm h
            · exact h1m h
          simpa using this
        obtain ⟨ihk, ihp⟩ := ih (cellS r.order_id :: acc₁) (acc₂ ++ [cellS r.order_id]) (by
          intro x
          rw [List.mem_append, hacc x]
          constructor
          · rintro ((h | h) | h)
            · exact Or.inl h
            · exact Or.inr (List.mem_cons_of_mem _ h)
            · rcases List.mem_singleton.mp h with h'
              subst h'
              exact Or.inr (List.mem_cons_self _ _)
          · rintro (h | h)
            · exact Or.inl (Or.inl h)
            · rcases List.mem_cons.mp h with h' | h'
              · subst h'
                exact Or.inr (List.mem_singleton.mpr rfl)
              · exact Or.inl (Or.inr h'))
        simp only [dedupGo, h1', Bool.false_eq_true, if_false, splitFirst, h2]
        constructor
        · rw [List.filter_cons, show (!(seen.contains (cellS r.order_id))) = true by
            rw [hs']; rfl]
          rw [ihk]
          rfl
        · rw [List.filter_cons, show (seen.contains (cellS r.order_id)) = false from hs']
          simpa using ihp

theorem validRow_parts {ctx : Ctx} {cfg : CleanConfig} {r : Row}
    (h : validRow ctx cfg r = true) :
    maskIds (normStep r) = true ∧ maskCat ctx (normStep r) = true ∧
    maskReg ctx (catStep ctx (normStep r)) = true ∧
    maskPrice (lateT5 ctx (normStep r)) = true ∧
    (!cfg.drop_zero_quantity || maskQty (lateT6 ctx (normStep r))) = true ∧
    maskDate (lateT7 ctx (normStep r)) = true ∧
    maskRange ctx (lateT7 ctx (normStep r)) = true ∧
    maskRev (lateT9 ctx (normStep r)) = true := by
  simp only [validRow, Bool.and_eq_true] at h
  exact ⟨h.1, h.2.1, h.2.2.1, h.2.2.2.1, h.2.2.2.2.1, h.2.2.2.2.2.1,
    h.2.2.2.2.2.2.1, h.2.2.2.2.2.2.2⟩

theorem survRev_of_valid {ctx : Ctx} {cfg : CleanConfig} {r : Row} (seen : List String)
    (h : validRow ctx cfg r = true) :
    survRev ctx cfg seen (normStep r) = survBase seen (normStep r) := by
  obtain ⟨_, h2, h3, h4, h5, h6, h7, h8⟩ := validRow_parts h
  simp [survRev, survRange, survDate, survQty, survPrice, survReg, survCat,
    h2, h3, h4, h5, h6, h7, h8]

set_option maxHeartbeats 800000 in
theorem cleanChunk_valid (ctx : Ctx) (cfg : CleanConfig) (chunk : List Row)
    (seen : List String) (hv : ∀ r ∈ chunk, validRow ctx cfg r = true) :
    ((cleanChunk ctx cfg chunk seen).cleaned
        = (splitFirst seen (chunk.map normStep)).1.map (lateT9 ctx))
    ∧ ((cleanChunk ctx cfg chunk seen).seen
        = seen ++ (splitFirst seen (chunk.map normStep)).1.map (fun r => cellS r.order_id))
    ∧ (cleanChunk ctx cfg chunk seen).rejected.Perm
        (if cfg.save_rejected_rows then
          (splitFirst seen (chunk.map normStep)).2.map (fun r => (r, "duplicate_order_id"))
         else []) := by
  have hn : normFiltered chunk = chunk.map normStep := by
    unfold normFiltered
    congr 1
    rw [List.filter_eq_self]
    intro r hr
    exact (validRow_parts (hv r hr)).1
  have hmem : ∀ n ∈ (dedupGo [] (chunk.map normStep)).1, ∃ r₀ ∈ chunk, n = normStep r₀ := by
    intro n hn'
    have hsub := (dedup_subset (chunk.map normStep) []).1 n hn'
    obtain ⟨r₀, hr₀, heq⟩ := List.mem_map.mp hsub
    exact ⟨r₀, hr₀, heq.symm⟩
  have hsplit := dedup_vs_split seen (chunk.map normStep) [] seen (by simp)
  have hkeep : (dedupGo [] (chunk.map normStep)).1.filter (fun r => survRev ctx cfg seen r)
      = (splitFirst seen (chunk.map normStep)).1 := by
    rw [← hsplit.1]
    apply List.filter_congr
    intro n hn'
    obtain ⟨r₀, hr₀, rfl⟩ := hmem n hn'
    rw [survRev_of_valid seen (hv r₀ hr₀)]
    rfl
  have hparts := cleanChunk_parts ctx cfg chunk seen
  refine ⟨?_, ?_, ?_⟩
  · rw [hparts]
    show (List.map (lateT9 ctx)
        (List.filter (survRev ctx cfg seen) (dedupKeep chunk))) = _
    rw [show dedupKeep chunk = (dedupGo [] (chunk.map normStep)).1 by
      rw [dedupKeep, hn], hkeep]
  · rw [hparts]
    show seen ++ (List.map (fun r => cellS (lateT9 ctx r).order_id)
        (List.filter (survRev ctx cfg seen) (dedupKeep chunk))) = _
    rw [show dedupKeep chunk = (dedupGo [] (chunk.map normStep)).1 by
      rw [dedupKeep, hn], hkeep]
    congr 1
    exact List.map_congr_left (fun r _ => key_lateT9 ctx r)
  · rw [hparts]
    show (if cfg.save_rejected_rows = true then _ else []).Perm _
    cases hsv : cfg.save_rejected_rows
    · simp
    · simp only [if_true]
      have hrej1 : List.filter (fun r => !maskIds (normStep r)) chunk = [] := by
        rw [List.filter_eq_nil_iff]
        intro r hr
        simp [(validRow_parts (hv r hr)).1]
      have hnil : ∀ (p : Row → Bool), (∀ n ∈ (dedupGo [] (chunk.map normStep)).1,
          p n = false) →
          List.filter p (dedupKeep chunk) = [] := by
        intro p hp
        rw [show dedupKeep chunk = (dedupGo [] (chunk.map normStep)).1 by
          rw [dedupKeep, hn]]
        rw [List.filter_eq_nil_iff]
        intro n hn'
        simp [hp n hn']
      have h4 : List.filter (fun r => !(maskCat ctx r) && survBase seen r)
          (dedupKeep chunk) = [] := by
        apply hnil
        intro n hn'
        obtain ⟨r₀, hr₀, rfl⟩ := hmem n hn'
        simp [(validRow_parts (hv r₀ hr₀)).2.1]
      have h5 : List.filter (fun r => !(maskReg ctx (catStep ctx r)) && survCat ctx seen r)
          (dedupKeep chunk) = [] := by
        apply hnil
        intro n hn'
        obtain ⟨r₀, hr₀, rfl⟩ := hmem n hn'
        simp [(validRow_parts (hv r₀ hr₀)).2.2.1]
      have h6 : List.filter (fun r => !(maskPrice (lateT5 ctx r)) && survReg ctx seen r)
          (dedupKeep chunk) = [] := by
        apply hnil
        intro n hn'
        obtain ⟨r₀, hr₀, rfl⟩ := hmem n hn'
        simp [(validRow_parts (hv r₀ hr₀)).2.2.2.1]
      have h7 : (if cfg.drop_zero_quantity then
          List.map (fun r => (lateT6 ctx r, "zero_quantity"))
            (List.filter (fun r => !(maskQty (lateT6 ctx r)) && survPrice ctx seen r)
              (dedupKeep chunk))
          else []) = [] := by
        cases hdz : cfg.drop_zero_quantity
        · simp
        · simp only [if_true]
          rw [hnil _ ?_]
          · rfl
          · intro n hn'
            obtain ⟨r₀, hr₀, rfl⟩ := hmem n hn'
            have h5' := (validRow_parts (hv r₀ hr₀)).2.2.2.2.1
            rw [hdz] at h5'
            simp only [Bool.not_true, Bool.false_or] at h5'
            simp [h5']
      have h8 : List.filter (fun r => !(maskDate (lateT7 ctx r)) && survQty ctx cfg seen r)
          (dedupKeep chunk) = [] := by
        apply hnil
        intro n hn'
        obtain ⟨r₀, hr₀, rfl⟩ := hmem n hn'
        simp [(validRow_parts (hv r₀ hr₀)).2.2.2.2.2.1]
      have h9 : List.filter (fun r => !(maskRange ctx (lateT7 ctx r)) && survDate ctx cfg seen r)
          (dedupKeep chunk) = [] := by
        apply hnil
        intro n hn'
        obtain ⟨r₀, hr₀, rfl⟩ := hmem n hn'
        simp [(validRow_parts (hv r₀ hr₀)).2.2.2.2.2.2.1]
      have h10 : List.filter (fun r => !(maskRev (lateT9 ctx r)) && survRange ctx cfg seen r)
          (dedupKeep chunk) = [] := by
        apply hnil
        intro n hn'
        obtain ⟨r₀, hr₀, rfl⟩ := hmem n hn'
        simp [(validRow_parts (hv r₀ hr₀)).2.2.2.2.2.2.2]
      rw [hrej1, h4, h5, h6, h7, h8, h9, h10]
      simp only [List.map_nil, List.nil_append, List.append_nil]
      have hperm := hsplit.2
      have hkeepseen : List.filter (fun r => seen.contains (cellS r.order_id))
          (dedupKeep chunk) = List.filter (fun r => seen.contains (cellS r.order_id))
            (dedupGo [] (chunk.map normStep)).1 := by
        rw [dedupKeep, hn]
      rw [show dedupRej chunk = (dedupGo [] (chunk.map normStep)).2 by
        rw [dedupRej, hn], hkeepseen]
      have := List.Perm.map (fun r => (r, "duplicate_order_id")) hperm
      rw [List.map_append] at this
      exact this

theorem runPipeline_valid (ctx : Ctx) (cfg : CleanConfig) :
    ∀ (chunks : List (List Row)) (seen₀ : List String),
      (∀ r ∈ chunks.flatten, validRow ctx cfg r = true) →
      ((runPipeline ctx cfg chunks seen₀).1
          = (splitFirst seen₀ (chunks.flatten.map normStep)).1.map (lateT9 ctx))
      ∧ ((runPipeline ctx cfg chunks seen₀).2.2
          = seen₀ ++
            (splitFirst seen₀ (chunks.flatten.map normStep)).1.map
              (fun r => cellS r.order_id))
      ∧ (runPipeline ctx cfg chunks seen₀).2.1.Perm
          (if cfg.save_rejected_rows then
            (splitFirst seen₀ (chunks.flatten.map normStep)).2.map
              (fun r => (r, "duplicate_order_id"))
           else []) := by
  intro chunks
  induction chunks with
  | nil =>
    intro seen₀ _
    refine ⟨rfl, by simp [runPipeline, splitFirst], ?_⟩
    cases cfg.save_rejected_rows <;> simp [runPipeline, splitFirst]
  | cons c cs ih =>
    intro seen₀ hv
    have hvc : ∀ r ∈ c, validRow ctx cfg r = true := by
      intro r hr
      exact hv r (by rw [List.flatten_cons]; exact List.mem_append.mpr (Or.inl hr))
    have hvcs : ∀ r ∈ cs.flatten, validRow ctx cfg r = true := by
      intro r hr
      exact hv r (by rw [List.flatten_cons]; exact List.mem_append.mpr (Or.inr hr))
    obtain ⟨hc1, hc2, hc3⟩ := cleanChunk_valid ctx cfg c seen₀ hvc
    obtain ⟨hr1, hr2, hr3⟩ := ih ((cleanChunk ctx cfg c seen₀).seen) hvcs
    have hacc : (cleanChunk ctx cfg c seen₀).seen = splitAcc seen₀ (c.map normStep) := by
      rw [hc2, splitAcc_eq]
    have happ : splitFirst seen₀ ((c ++ cs.flatten).map normStep)
        = ((splitFirst seen₀ (c.map normStep)).1 ++
            (splitFirst (splitAcc seen₀ (c.map normStep)) (cs.flatten.map normStep)).1,
           (splitFirst seen₀ (c.map normStep)).2 ++
            (splitFirst (splitAcc seen₀ (c.map normStep)) (cs.flatten.map normStep)).2) := by
      rw [List.map_append]
      exact splitFirst_append (c.map normStep) (cs.flatten.map normStep) seen₀
    refine ⟨?_, ?_, ?_⟩
    · show (cleanChunk ctx cfg c seen₀).cleaned ++
          (runPipeline ctx cfg cs ((cleanChunk ctx cfg c seen₀).seen)).1 = _
      rw [List.flatten_cons, happ, List.map_append, hc1, hr1, hacc]
    · show (runPipeline ctx cfg cs ((cleanChunk ctx cfg c seen₀).seen)).2.2 = _
      rw [hr2, hacc, splitAcc_eq, List.flatten_cons, happ]
      simp only [List.map_append, List.append_assoc]
      rw [splitAcc_eq]
    · show ((cleanChunk ctx cfg c seen₀).rejected ++
          (runPipeline ctx cfg cs ((cleanChunk ctx cfg c seen₀).seen)).2.1).Perm _
      rw [List.flatten_cons, happ]
      cases hsv : cfg.save_rejected_rows
      · rw [hsv] at hc3 hr3
        simp only [Bool.false_eq_true, if_false] at hc3 hr3 ⊢
        simpa using List.Perm.append hc3 hr3
      · rw [hsv] at hc3 hr3
        simp only [if_true] at hc3 hr3 ⊢
        rw [List.map_append, ← hacc]
        exact List.Perm.append hc3 hr3

/-- Claim C1 (amended): chunk-size independence of deduplication for fully
valid inputs.  When every row of the file passes all per-row validation
stages, any two chunkings of the file produce the same clean records (the
first row of each order id, fully transformed, in file order) and the same
final seen set, and the rejected collections are permutations of each other
— with tracking on, exactly the later rows of each order-id group, each
rejected with `duplicate_order_id`.  (The unamended claim fails in general:
an invalid first occurrence consumes its order id inside its own chunk but
not across chunks.) -/
theorem dedup_chunk_independent (ctx : Ctx) (cfg : CleanConfig) (rows : List Row)
    (chunks₁ chunks₂ : List (List Row))
    (h1 : chunks₁.flatten = rows) (h2 : chunks₂.flatten = rows)
    (hv : ∀ r ∈ rows, validRow ctx cfg r = true) :
    ((runPipeline ctx cfg chunks₁ []).1 = (runPipeline ctx cfg chunks₂ []).1)
    ∧ ((runPipeline ctx cfg chunks₁ []).2.2 = (runPipeline ctx cfg chunks₂ []).2.2)
    ∧ ((runPipeline ctx cfg chunks₁ []).1
        = (splitFirst [] (rows.map normStep)).1.map (lateT9 ctx))
    ∧ (runPipeline ctx cfg chunks₁ []).2.1.Perm (runPipeline ctx cfg chunks₂ []).2.1
    ∧ (cfg.save_rejected_rows = true →
        (runPipeline ctx cfg chunks₁ []).2.1.Perm
          ((splitFirst [] (rows.map normStep)).2.map
            (fun r => (r, "duplicate_order_id")))) := by
  subst h1
  obtain ⟨ha1, ha2, ha3⟩ := runPipeline_valid ctx cfg chunks₁ [] hv
  obtain ⟨hb1, hb2, hb3⟩ := runPipeline_valid ctx cfg chunks₂ []
    (by rw [h2]; exact hv)
  rw [h2] at hb1 hb2 hb3
  refine ⟨by rw [ha1, hb1], by rw [ha2, hb2], ha1, ?_, ?_⟩
  · exact ha3.trans hb3.symm
  · intro hsv
    rw [hsv] at ha3
    simpa using ha3

/-- Witness for the amended C1: a duplicated valid row, chunked two ways. -/
theorem dedup_chunk_independent_witness :
    ((chunksOf 1 [row1, row1]).flatten = [row1, row1]
      ∧ (chunksOf 2 [row1, row1]).flatten = [row1, row1]
      ∧ ∀ r ∈ [row1, row1], validRow testCtx testCfg r = true)
    ∧ (runPipeline testCtx testCfg (chunksOf 1 [row1, row1]) []).1
        = (runPipeline testCtx testCfg (chunksOf 2 [row1, row1]) []).1 :=
  ⟨⟨by decide, by decide, by decide⟩,
    (dedup_chunk_independent testCtx testCfg [row1, row1] (chunksOf 1 [row1, row1])
      (chunksOf 2 [row1, row1]) (by decide) (by decide) (by decide)).1⟩

end CleanSales
